import Mathlib

/-!
# Verification of the layered graph layout engine

Shallow embedding of `app_mockup/backend/graph_layout.py`: layer assignment
(longest-path Kahn), barycenter ordering with bidirectional sweeps,
bottom-layer regrouping, position calculation, crossing counting, and the
`apply_layout_to_nodes` projection.

Modelling choices:
* A node id is its character sequence (`List Char`), ordered by the
  code-point lexicographic order — exactly Python's `<` on `str`.
* Python dicts are insertion-ordered association lists with unique keys;
  `dict[k] = v` keeps the key's position, `defaultdict` access appends a
  fresh entry at the end.
* Python's arbitrary-precision integers are `Int`/`Nat`.  `statistics.mean`
  over integer order positions is exact (the Python implementation computes
  an exact fraction before converting to float, and all comparisons the code
  performs on these small-denominator values are exact in binary floating
  point); it is modelled by the gcd-free fraction type `Frac` compared by
  cross-multiplication.
* Python's `list.sort` / `sorted` are stable; they are modelled by
  `List.insertionSort`, which is also stable.
* The runtime string hash used by the barycenter fallback is a parameter
  `h : NodeId → Nat`; Python randomizes this hash per process.
-/

namespace GraphLayout

/-- A node id: the character data of the Python id string. -/
abbrev NodeId := List Char

/-- An edge record: (source, target).  Extra fields of the Python edge dicts
are never read by the engine and are elided. -/
abbrev Edge := NodeId × NodeId

/-- Python dict assignment `d[k] = v`: update in place if the key exists
(keeping its position), else append a new entry. -/
def setk [BEq α] : List (α × β) → α → β → List (α × β)
  | [], k, v => [(k, v)]
  | (k0, v0) :: rest, k, v =>
    if k0 == k then (k0, v) :: rest else (k0, v0) :: setk rest k v

/-- Python `d.get(k, v0)`. -/
def getD [BEq α] (d : List (α × β)) (k : α) (v0 : β) : β :=
  (d.lookup k).getD v0

/-- Python `defaultdict(list)` access-and-append: `d[k].append(v)`. -/
def appendAt [BEq α] : List (α × List β) → α → β → List (α × List β)
  | [], k, v => [(k, [v])]
  | (k0, l) :: rest, k, v =>
    if k0 == k then (k0, l ++ [v]) :: rest else (k0, l) :: appendAt rest k v

/-- Python `defaultdict(int)` access-and-add: `d[k] += n`. -/
def addAt [BEq α] : List (α × Int) → α → Int → List (α × Int)
  | [], k, n => [(k, n)]
  | (k0, m) :: rest, k, n =>
    if k0 == k then (k0, m + n) :: rest else (k0, m) :: addAt rest k n

/-- Python `d1.update(d2)` for dicts. -/
def dupdate [BEq α] (d1 d2 : List (α × β)) : List (α × β) :=
  d2.foldl (fun acc kv => setk acc kv.1 kv.2) d1

/-- Membership test of an edge's endpoints in the node-id set
(`src in node_ids and tgt in node_ids`). -/
def included (nodes : List NodeId) (e : Edge) : Bool :=
  nodes.contains e.1 && nodes.contains e.2

/-- The adjacency list `children` built in `assign_layers` and again in
`compute_layout_positions`: one pass over the edges, keeping only edges whose
endpoints are both node ids. -/
def children_map (nodes : List NodeId) (edges : List Edge) :
    List (NodeId × List NodeId) :=
  edges.foldl (fun d e => if included nodes e then appendAt d e.1 e.2 else d) []

/-- The adjacency list `parents` built in `assign_layers` and again in
`compute_layout_positions`. -/
def parents_map (nodes : List NodeId) (edges : List Edge) :
    List (NodeId × List NodeId) :=
  edges.foldl (fun d e => if included nodes e then appendAt d e.2 e.1 else d) []

/-- `in_degree` after the edge pass of `assign_layers`. -/
def in_degree_edges (nodes : List NodeId) (edges : List Edge) :
    List (NodeId × Int) :=
  edges.foldl (fun d e => if included nodes e then addAt d e.2 1 else d) []

/-- `in_degree` after the pass `for node in nodes: if id not in in_degree:
in_degree[id] = 0`. -/
def in_degree_init (nodes : List NodeId) (edges : List Edge) :
    List (NodeId × Int) :=
  nodes.foldl (fun d nid => if (d.lookup nid).isSome then d else d ++ [(nid, 0)])
    (in_degree_edges nodes edges)

/-- State of the topological layering loop: the pending queue (a FIFO deque),
the partial layer map, the remaining in-degrees, and — as instrumentation of
what the Python code keeps implicitly in its control flow — the list of node
ids already dequeued and processed. -/
structure KState where
  queue : List NodeId
  layers : List (NodeId × Nat)
  indeg : List (NodeId × Int)
  processed : List NodeId
deriving Repr, DecidableEq

/-- One child update inside the dequeue step of `assign_layers`:
`layers[child] = max(layers.get(child, 0), current_layer + 1)`, decrement the
in-degree and enqueue the child when it reaches zero. -/
def process_child (currentLayer : Nat) (st : KState) (c : NodeId) : KState :=
  let cl := max (getD st.layers c 0) (currentLayer + 1)
  let layers2 := setk st.layers c cl
  let indeg2 := addAt st.indeg c (-1)
  let queue2 := if getD indeg2 c 0 == 0 then st.queue ++ [c] else st.queue
  { queue := queue2, layers := layers2, indeg := indeg2, processed := st.processed }

/-- The `while queue:` loop of `assign_layers`, with explicit fuel.  Each
iteration dequeues one node, updates all its children and records the node as
processed.  (`assign_layers_state` passes enough fuel to drain the queue: the
loop dequeues pairwise distinct node ids of the input, as proved below.) -/
def kahn_loop (children : List (NodeId × List NodeId)) :
    Nat → KState → KState
  | 0, st => st
  | fuel + 1, st =>
    match st.queue with
    | [] => st
    | u :: q =>
      let L := getD st.layers u 0
      let st1 := (getD children u []).foldl (process_child L)
        { st with queue := q }
      kahn_loop children fuel { st1 with processed := st1.processed ++ [u] }

/-- Seeding pass of `assign_layers`: every node of in-degree 0 gets layer 0
and is enqueued, in node-list order. -/
def seed_state (nodes : List NodeId) (indeg : List (NodeId × Int)) :
    List (NodeId × Nat) × List NodeId :=
  nodes.foldl
    (fun st nid =>
      if getD indeg nid 0 == 0 then (setk st.1 nid 0, st.2 ++ [nid]) else st)
    ([], [])

/-- The state of `assign_layers` after the queue loop has run. -/
def assign_layers_state (nodes : List NodeId) (edges : List Edge) : KState :=
  let indeg := in_degree_init nodes edges
  let seeded := seed_state nodes indeg
  kahn_loop (children_map nodes edges) (2 * nodes.length + 1)
    { queue := seeded.2, layers := seeded.1, indeg := indeg, processed := [] }

/-- `assign_layers`: queue loop result plus the fallback pass that puts every
remaining (cycle-stuck) node in layer 0. -/
def assign_layers (nodes : List NodeId) (edges : List Edge) :
    List (NodeId × Nat) :=
  nodes.foldl
    (fun ly nid => if (ly.lookup nid).isSome then ly else ly ++ [(nid, 0)])
    (assign_layers_state nodes edges).layers

/-- The nodes actually dequeued and settled by the topological queue process
of `assign_layers` — the spec calls the remaining ones the nodes "part of a
cycle not resolvable by this process". -/
def kahn_processed (nodes : List NodeId) (edges : List Edge) : List NodeId :=
  (assign_layers_state nodes edges).processed

/-- The inductive invariant of the topological queue loop, at iteration
boundaries: (1) an already-processed node lies strictly below each of its
children in the partial layer map; (2) every parent occurrence of a queued or
processed node has already been processed; (3) the queue is disjoint from the
processed list and (4) duplicate-free; (5) the remaining in-degree of each
node is its number of included in-edges minus those whose source is
processed. -/
def KInv (nodes : List NodeId) (edges : List Edge) (st : KState) : Prop :=
  (∀ u ∈ st.processed, ∀ v ∈ getD (children_map nodes edges) u [],
      getD st.layers u 0 < getD st.layers v 0) ∧
  (∀ c, (c ∈ st.queue ∨ c ∈ st.processed) →
      ∀ w ∈ getD (parents_map nodes edges) c [], w ∈ st.processed) ∧
  (∀ c ∈ st.queue, c ∉ st.processed) ∧
  st.queue.Nodup ∧
  (∀ c ∈ nodes, getD st.indeg c 0 =
      ((getD (parents_map nodes edges) c []).length : Int) -
      ((getD (parents_map nodes edges) c []).countP
        (fun w => decide (w ∈ st.processed)) : Int))

/-! ## Exact fractions

`statistics.mean` of integer order positions, and the hash fallback value
`hash(id) % 10000 / 10000`.  Values are kept unnormalized (numerator and
positive denominator) and compared by cross-multiplication, which agrees
with the value comparisons Python performs. -/

/-- An exact fraction; every denominator produced by the engine is
positive. -/
structure Frac where
  num : Int
  den : Int
deriving Repr, DecidableEq

/-- Value equality of fractions (cross-multiplication). -/
def Frac.eqv (a b : Frac) : Prop := a.num * b.den = b.num * a.den

/-- Strict value comparison of fractions (cross-multiplication; valid since
all denominators the engine builds are positive). -/
def Frac.flt (a b : Frac) : Prop := a.num * b.den < b.num * a.den

instance : DecidableEq NodeId := inferInstance

instance (a b : Frac) : Decidable (Frac.eqv a b) := by
  unfold Frac.eqv; infer_instance

instance (a b : Frac) : Decidable (Frac.flt a b) := by
  unfold Frac.flt; infer_instance

/-- `HASH_FALLBACK_RANGE = 10000`. -/
def HASH_FALLBACK_RANGE : Nat := 10000

/-- The hash-based fallback value of `compute_barycenter`:
`float(hash(node_id) % HASH_FALLBACK_RANGE) / HASH_FALLBACK_RANGE`. -/
def hash_fallback (h : NodeId → Nat) (node_id : NodeId) : Frac :=
  ⟨(h node_id % HASH_FALLBACK_RANGE : Nat), (HASH_FALLBACK_RANGE : Nat)⟩

/-- The mean of a nonempty list of order positions. -/
def mean_of (ps : List Nat) : Frac :=
  ⟨(ps.foldl (· + ·) 0 : Nat), (ps.length : Nat)⟩

/-- `compute_barycenter`: mean of the neighbors' current order positions, or
the hash fallback when no neighbor has a recorded order.  The Python function
also receives the adjacent layer's node list but never reads it. -/
def compute_barycenter (h : NodeId → Nat) (node_id : NodeId)
    (layer_nodes : List NodeId) (neighbors : List NodeId)
    (node_orders : List (NodeId × Nat)) : Frac :=
  let _ := layer_nodes
  if neighbors.isEmpty then hash_fallback h node_id
  else
    let positions := (neighbors.filter fun n => (node_orders.lookup n).isSome).map
      fun n => getD node_orders n 0
    if positions.isEmpty then hash_fallback h node_id
    else mean_of positions

/-- Python `sorted` on a list of id strings (code-point lexicographic
order; `insertionSort` is stable like Python's sort). -/
def sortStr (l : List NodeId) : List NodeId :=
  l.insertionSort (· ≤ ·)

/-- Python `sorted` on layer numbers. -/
def sortNat (l : List Nat) : List Nat :=
  l.insertionSort (· ≤ ·)

/-- The sentinel group key `('orphan',)`. -/
def orphanKey : List NodeId := ["orphan".data]

/-- A bottom-layer group key: the sorted list of the node's parent ids, or
the sentinel for parentless nodes. -/
def group_key_of (parents : List (NodeId × List NodeId)) (nid : NodeId) :
    List NodeId :=
  let parent_ids := getD parents nid []
  if parent_ids.isEmpty then orphanKey else sortStr parent_ids

/-- The `groups` defaultdict of `order_bottom_layer_by_support`: bottom-layer
nodes bucketed by their group key, in first-appearance order. -/
def build_groups (bottom : List NodeId) (parents : List (NodeId × List NodeId)) :
    List (List NodeId × List NodeId) :=
  bottom.foldl (fun gs nid => appendAt gs (group_key_of parents nid) nid) []

/-- A group's sort position: a finite value, or the `float('inf')` sentinel
used for the orphan group. -/
inductive GPos where
  | fin (q : Frac)
  | inf
deriving Repr, DecidableEq

/-- Strict comparison of group positions: every finite value is below
`inf`. -/
def GPos.lt : GPos → GPos → Prop
  | .fin a, .fin b => a.flt b
  | .fin _, .inf => True
  | .inf, _ => False

instance (a b : GPos) : Decidable (GPos.lt a b) := by
  cases a <;> cases b <;> simp only [GPos.lt] <;> infer_instance

/-- Value equality of group positions. -/
def GPos.eqv : GPos → GPos → Prop
  | .fin a, .fin b => a.eqv b
  | .inf, .inf => True
  | _, _ => False

instance (a b : GPos) : Decidable (GPos.eqv a b) := by
  cases a <;> cases b <;> simp only [GPos.eqv] <;> infer_instance

/-- The position key of a group in `order_bottom_layer_by_support`: infinity
for the orphan key, else the mean of the parents' recorded order positions
(0 when none of the parents has one). -/
def group_position (parent_orders : List (NodeId × Nat)) (key : List NodeId) :
    GPos :=
  if key == orphanKey then .inf
  else
    let ps := (key.filter fun p => (parent_orders.lookup p).isSome).map
      fun p => getD parent_orders p 0
    .fin (if ps.isEmpty then ⟨0, 1⟩ else mean_of ps)

/-- Python tuple comparison on `(position, group_key)` sort keys, as used by
`sorted_groups.sort`. -/
def group_le (a b : GPos × List NodeId × List NodeId) : Prop :=
  GPos.lt a.1 b.1 ∨ (GPos.eqv a.1 b.1 ∧ a.2.1 ≤ b.2.1)

instance (a b : GPos × List NodeId × List NodeId) : Decidable (group_le a b) := by
  unfold group_le; infer_instance

/-- Final order assignment of `order_bottom_layer_by_support` (and of the
sweep passes and of `init_orders`): write `node_orders[node] = index` for
each member of the given node list in turn, into the dict `d`. -/
def assign_orders (d : List (NodeId × Nat)) (flat : List NodeId) :
    List (NodeId × Nat) :=
  flat.enum.foldl (fun acc p => setk acc p.2 p.1) d

/-- The `sorted_groups` list of `order_bottom_layer_by_support`: the
bottom-layer groups decorated with their position key, sorted by
`(position, group key)`. -/
def sorted_groups_of (bottom_layer_nodes : List NodeId)
    (parents : List (NodeId × List NodeId))
    (parent_orders : List (NodeId × Nat)) :
    List (GPos × List NodeId × List NodeId) :=
  ((build_groups bottom_layer_nodes parents).map fun g =>
    (group_position parent_orders g.1, g.1, g.2)).insertionSort group_le

/-- The bottom layer flattened in final order: the sorted groups'
member lists, each sorted lexicographically, concatenated. -/
def obls_flat (bottom_layer_nodes : List NodeId)
    (parents : List (NodeId × List NodeId))
    (parent_orders : List (NodeId × Nat)) : List NodeId :=
  ((sorted_groups_of bottom_layer_nodes parents parent_orders).map
    fun t => sortStr t.2.2).flatten

/-- `order_bottom_layer_by_support`: group the bottom layer by parent-id key,
sort groups by (mean parent position, key), sort members lexicographically and
concatenate, assigning contiguous order indices into a fresh dict. -/
def order_bottom_layer_by_support (bottom_layer_nodes : List NodeId)
    (parents : List (NodeId × List NodeId))
    (parent_orders : List (NodeId × Nat)) : List (NodeId × Nat) :=
  assign_orders [] (obls_flat bottom_layer_nodes parents parent_orders)

/-- Sort key comparison for the per-layer barycenter list:
`(barycenter, node_id)` ascending, Python tuple order. -/
def bary_le (a b : Frac × NodeId) : Prop :=
  a.1.flt b.1 ∨ (a.1.eqv b.1 ∧ a.2 ≤ b.2)

instance (a b : Frac × NodeId) : Decidable (bary_le a b) := by
  unfold bary_le; infer_instance

/-- Reorder one layer by the barycenters of the given neighbor sets: build
`(barycenter, node_id)` pairs, sort them, and reassign contiguous orders. -/
def reorder_layer (h : NodeId → Nat) (layer_nodes adj_layer_nodes : List NodeId)
    (neighbors : List (NodeId × List NodeId)) (orders : List (NodeId × Nat)) :
    List (NodeId × Nat) :=
  let nbc := layer_nodes.map fun nid =>
    (compute_barycenter h nid adj_layer_nodes (getD neighbors nid []) orders, nid)
  assign_orders orders ((nbc.insertionSort bary_le).map fun p => p.2)

/-- The top-down sweep pass of `barycenter_ordering`: every layer except the
first, skipping layers of at most one node, reordered by parent barycenters
against the layer above. -/
def td_pass (h : NodeId → Nat) (nbl : List (Nat × List NodeId))
    (parents : List (NodeId × List NodeId)) (layer_numbers : List Nat)
    (orders : List (NodeId × Nat)) : List (NodeId × Nat) :=
  (List.range layer_numbers.length).foldl
    (fun ord idx =>
      if idx == 0 then ord
      else
        let layer := layer_numbers.getD idx 0
        let layer_nodes := getD nbl layer []
        if layer_nodes.length ≤ 1 then ord
        else reorder_layer h layer_nodes (getD nbl (layer - 1) []) parents ord)
    orders

/-- The bottom-up sweep pass of `barycenter_ordering`: layers in descending
index order, every layer except the last, skipping layers of at most one
node, reordered by child barycenters against the layer below. -/
def bu_pass (h : NodeId → Nat) (nbl : List (Nat × List NodeId))
    (children : List (NodeId × List NodeId)) (layer_numbers : List Nat)
    (orders : List (NodeId × Nat)) : List (NodeId × Nat) :=
  ((List.range layer_numbers.length).reverse).foldl
    (fun ord idx =>
      if idx == layer_numbers.length - 1 then ord
      else
        let layer := layer_numbers.getD idx 0
        let layer_nodes := getD nbl layer []
        if layer_nodes.length ≤ 1 then ord
        else reorder_layer h layer_nodes (getD nbl (layer + 1) []) children ord)
    orders

/-- The deterministic initial order of `barycenter_ordering`: each layer's
node list sorted lexicographically and enumerated. -/
def init_orders (nbl : List (Nat × List NodeId)) : List (NodeId × Nat) :=
  nbl.foldl (fun d p => assign_orders d (sortStr p.2)) []

/-- The order map after the iterated bidirectional sweeps of
`barycenter_ordering`, before the bottom-layer regrouping. -/
def sweep_orders (h : NodeId → Nat) (nbl : List (Nat × List NodeId))
    (children parents : List (NodeId × List NodeId))
    (layer_numbers : List Nat) (iterations : Nat) : List (NodeId × Nat) :=
  (List.range iterations).foldl
    (fun ord _ => bu_pass h nbl children layer_numbers
      (td_pass h nbl parents layer_numbers ord))
    (init_orders nbl)

/-- `barycenter_ordering`: initial lexicographic order, `iterations`
bidirectional sweeps, then — when there are at least two layers and the
deepest layer has more than one node — the bottom-layer regrouping, whose
result replaces the bottom layer's orders via `dict.update`. -/
def barycenter_ordering (h : NodeId → Nat) (nbl : List (Nat × List NodeId))
    (children parents : List (NodeId × List NodeId)) (iterations : Nat) :
    List (NodeId × Nat) :=
  let layer_numbers := sortNat (nbl.map fun p => p.1)
  let node_orders := sweep_orders h nbl children parents layer_numbers iterations
  if layer_numbers.isEmpty then node_orders
  else
    let bottom_layer_nodes := getD nbl layer_numbers.getLast! []
    if 1 < bottom_layer_nodes.length ∧ 1 < layer_numbers.length then
      dupdate node_orders
        (order_bottom_layer_by_support bottom_layer_nodes parents node_orders)
    else node_orders

/-- Whether two edges of the same layer bucket cross: their source orders and
target orders compare in opposite directions (`node_orders.get(id, 0)`). -/
def edges_cross (node_orders : List (NodeId × Nat)) (e1 e2 : Edge) : Bool :=
  let u1 := getD node_orders e1.1 0
  let u2 := getD node_orders e2.1 0
  let v1 := getD node_orders e1.2 0
  let v2 := getD node_orders e2.2 0
  (u1 < u2 && v2 < v1) || (u2 < u1 && v1 < v2)

/-- Crossings among the ordered pairs i < j of one bucket's edge list. -/
def count_bucket (node_orders : List (NodeId × Nat)) : List Edge → Nat
  | [] => 0
  | e :: rest => (rest.filter (edges_cross node_orders e)).length +
      count_bucket node_orders rest

/-- `count_edge_crossings`: bucket the edges by (source layer, target layer)
with source layer strictly smaller, dropping edges with an endpoint missing
from the layer map, then count inverted pairs per bucket.  The Python
function also receives `nodes_by_layer` but only binds it to an unused local
variable. -/
def count_edge_crossings (nbl : List (Nat × List NodeId)) (edges : List Edge)
    (node_orders : List (NodeId × Nat)) (node_layers : List (NodeId × Nat)) :
    Nat :=
  let _ := nbl
  let buckets := edges.foldl
    (fun (b : List ((Nat × Nat) × List Edge)) e =>
      match node_layers.lookup e.1, node_layers.lookup e.2 with
      | some ls, some lt => if ls < lt then appendAt b (ls, lt) e else b
      | _, _ => b)
    []
  buckets.foldl (fun cnt bucket => cnt + count_bucket node_orders bucket.2) 0

/-- `nodes_by_layer`: nodes bucketed by their assigned layer, in node-list
order, layers in first-appearance order. -/
def nodes_by_layer_of (nodes : List NodeId) (node_layers : List (NodeId × Nat)) :
    List (Nat × List NodeId) :=
  nodes.foldl (fun d nid => appendAt d (getD node_layers nid 0) nid) []

/-- The final order map computed inside `compute_layout_positions`
(step 2 of the pipeline). -/
def pipeline_orders (h : NodeId → Nat) (nodes : List NodeId)
    (edges : List Edge) (iterations : Nat) : List (NodeId × Nat) :=
  barycenter_ordering h (nodes_by_layer_of nodes (assign_layers nodes edges))
    (children_map nodes edges) (parents_map nodes edges) iterations

/-- The layer's row sorted by the final node orders (stable sort, key
`node_orders[n]`). -/
def layer_row (node_orders : List (NodeId × Nat)) (ns : List NodeId) :
    List NodeId :=
  ns.insertionSort fun a b => getD node_orders a 0 ≤ getD node_orders b 0

/-- `start_x` of a layer of the given width: `-total_width // 2` (Python
floor division) when the layer has more than one node, else 0. -/
def start_x_of (layer_width : Nat) (node_spacing : Int) : Int :=
  if 1 < layer_width then
    Int.fdiv (-(((layer_width : Int) - 1) * node_spacing)) 2
  else 0

/-- One layer of the position computation: sort the layer's nodes by final
order, center the row, and assign `x = start_x + i * node_spacing`,
`y = layer * layer_separation`; also track `max_layer_width`. -/
def positions_layer_step (node_orders : List (NodeId × Nat))
    (node_spacing layer_separation : Int)
    (acc : List (NodeId × Int × Int) × Nat) (p : Nat × List NodeId) :
    List (NodeId × Int × Int) × Nat :=
  let maxw := max acc.2 p.2.length
  let start_x := start_x_of p.2.length node_spacing
  let pos := (layer_row node_orders p.2).enum.foldl
    (fun ps q =>
      setk ps q.2 (start_x + (q.1 : Int) * node_spacing,
        (p.1 : Int) * layer_separation))
    acc.1
  (pos, maxw)

/-- The position computation of `compute_layout_positions`, step 3: fold
`positions_layer_step` over the layers.  Returns (positions,
max_layer_width). -/
def positions_calc (nbl : List (Nat × List NodeId))
    (node_orders : List (NodeId × Nat)) (node_spacing layer_separation : Int) :
    List (NodeId × Int × Int) × Nat :=
  nbl.foldl (positions_layer_step node_orders node_spacing layer_separation)
    ([], 0)

/-- `compute_layout_positions`: the full pipeline.  Returns (positions,
metrics, layer map).  The metrics dict is the exact association list the code
builds on each path — note the empty-input path carries only three keys. -/
def compute_layout_positions (h : NodeId → Nat) (nodes : List NodeId)
    (edges : List Edge) (node_spacing layer_separation : Int)
    (iterations : Nat) :
    List (NodeId × Int × Int) × List (String × Nat) × List (NodeId × Nat) :=
  if nodes.isEmpty then
    ([], [("crossings", 0), ("layers", 0), ("max_layer_width", 0)], [])
  else
    let node_layers := assign_layers nodes edges
    let nbl := nodes_by_layer_of nodes node_layers
    let node_orders := barycenter_ordering h nbl (children_map nodes edges)
      (parents_map nodes edges) iterations
    let pc := positions_calc nbl node_orders node_spacing layer_separation
    let crossings := count_edge_crossings nbl edges node_orders node_layers
    let metrics := [("crossings", crossings), ("layers", nbl.length),
      ("max_layer_width", pc.2), ("total_nodes", nodes.length),
      ("total_edges", edges.length)]
    (pc.1, metrics, node_layers)

/-! ## Heap model for `apply_layout_to_nodes`

The node records handed to `apply_layout_to_nodes` are mutable Python dicts.
To state that the function never mutates its inputs we model the dict store
explicitly: a heap is a list of records, a node reference is an index into
it.  `node.copy()` allocates a fresh record at the end of the heap;
`node_copy['x'] = x` is an in-place store to that fresh address. -/

/-- A Python value stored in a node record: an integer, a string, or some
other opaque payload value (the engine never inspects those). -/
inductive PyVal where
  | intV (i : Int)
  | strV (s : String)
  | optV (tag : Nat)
deriving Repr, DecidableEq

/-- A node record: an insertion-ordered Python dict from field name to value. -/
abbrev Record := List (String × PyVal)

/-- A heap of node records; an address is an index. -/
abbrev Heap := List Record

/-- The string id of a record, when its `id` field holds a string. -/
def record_id (r : Record) : Option NodeId :=
  match r.lookup "id" with
  | some (.strV s) => some s.data
  | _ => none

/-- One iteration of the `apply_layout_to_nodes` loop on node reference `r`:
copy the record to a fresh address, and when its id is in the positions map,
store the `x` and `y` fields into the copy. -/
def apply_one (positions : List (NodeId × Int × Int)) (heap : Heap) (r : Nat) :
    Heap × Nat :=
  let rec0 := heap.getD r []
  let addr := heap.length
  let heap1 := heap ++ [rec0]
  match record_id rec0 with
  | some s =>
    match positions.lookup s with
    | some xy =>
      (heap1.set addr (setk (setk rec0 "x" (.intV xy.1)) "y" (.intV xy.2)), addr)
    | none => (heap1, addr)
  | none => (heap1, addr)

/-- `apply_layout_to_nodes` over the heap model: fold `apply_one` over the
input node references, collecting the fresh result references in order. -/
def apply_layout_to_nodes (positions : List (NodeId × Int × Int)) :
    Heap → List Nat → Heap × List Nat
  | heap, [] => (heap, [])
  | heap, r :: rs =>
    let step := apply_one positions heap r
    let rest := apply_layout_to_nodes positions step.1 rs
    (rest.1, step.2 :: rest.2)

/-! ## Concrete inputs used in the claim analyses -/

/-- Shorthand: the id of a Python string. -/
def str (x : String) : NodeId := x.data

/-- A fixed instantiation of the runtime hash (any value works for inputs
whose pipeline never consults the hash fallback). -/
def pyhash0 : NodeId → Nat := fun _ => 0

/-- Nodes of the self-loop example: A → B plus a self-loop on A. -/
def selfLoopNodes : List NodeId := [str "A", str "B"]

/-- Edges of the self-loop example without the self-loop. -/
def selfLoopEdgesBase : List Edge := [(str "A", str "B")]

/-- Edges of the self-loop example with the self-loop on A added. -/
def selfLoopEdgesLoop : List Edge := [(str "A", str "B"), (str "A", str "A")]

/-- One possible per-process instantiation of Python's randomized string
hash, restricted to the ids it is consulted on. -/
def pyhashRun1 : NodeId → Nat := fun t =>
  if t == str "B" then 1 else if t == str "C" then 2 else 0

/-- A second possible per-process instantiation of Python's randomized
string hash, with the values of B and C exchanged. -/
def pyhashRun2 : NodeId → Nat := fun t =>
  if t == str "B" then 2 else if t == str "C" then 1 else 0

/-- Nodes of the hash-sensitivity example: one edge A → D and two isolated
nodes B, C whose bottom-up barycenter falls back to the hash. -/
def hashExNodes : List NodeId := [str "A", str "B", str "C", str "D"]

/-- Edges of the hash-sensitivity example. -/
def hashExEdges : List Edge := [(str "A", str "D")]

/-- Nodes of the crossing-regression example. -/
def crossExNodes : List NodeId :=
  [str "a", str "m", str "n", str "o", str "p", str "q"]

/-- Edges of the crossing-regression example: a fans out to m, n, o; p is
supported by m, n, o; q is supported by o and (via a long edge) a. -/
def crossExEdges : List Edge :=
  [(str "a", str "m"), (str "a", str "n"), (str "a", str "o"),
   (str "m", str "p"), (str "n", str "p"), (str "o", str "p"),
   (str "o", str "q"), (str "a", str "q")]

/-- The naive ordering of the crossing-regression example: each layer's node
ids sorted lexicographically (layers are {a}, {m,n,o}, {p,q}). -/
def crossExNaive : List (NodeId × Nat) :=
  [(str "a", 0), (str "m", 0), (str "n", 1), (str "o", 2),
   (str "p", 0), (str "q", 1)]

/-- Nodes of the crossing-improvement example. -/
def crossImpNodes : List NodeId := [str "a", str "b", str "p", str "q"]

/-- Edges of the crossing-improvement example: a → q and b → p cross under
the lexicographic order. -/
def crossImpEdges : List Edge := [(str "a", str "q"), (str "b", str "p")]

/-- The naive lexicographic ordering of the crossing-improvement example
(layers are {a,b} and {p,q}). -/
def crossImpNaive : List (NodeId × Nat) :=
  [(str "a", 0), (str "b", 1), (str "p", 0), (str "q", 1)]

/-- Nodes of the duplicate-edge grouping example. -/
def dupExNodes : List NodeId :=
  [str "u", str "w", str "z", str "g1", str "gm", str "g2"]

/-- Edges of the duplicate-edge grouping example: a chain u → w → z so that
u, w, z sit alone in layers 0, 1, 2, and three bottom-layer nodes whose
parent lists are [u,u,w,z], [u,u,z] and [u,w,z] (note the duplicated
edges). -/
def dupExEdges : List Edge :=
  [(str "u", str "w"), (str "w", str "z"),
   (str "u", str "g1"), (str "u", str "g1"), (str "w", str "g1"),
   (str "z", str "g1"),
   (str "u", str "gm"), (str "u", str "gm"), (str "z", str "gm"),
   (str "u", str "g2"), (str "w", str "g2"), (str "z", str "g2")]

/-- The record produced for one node by `apply_layout_to_nodes`: a copy of
the input record, with the `x` and `y` fields set from the positions map
when the node's id has an entry there. -/
def layout_record (positions : List (NodeId × Int × Int)) (r : Record) :
    Record :=
  match record_id r with
  | some s =>
    match positions.lookup s with
    | some xy => setk (setk r "x" (.intV xy.1)) "y" (.intV xy.2)
    | none => r
  | none => r

/-- Concrete heap for the `apply_layout_to_nodes` witnesses: two node
records, one with payload. -/
def witHeap : Heap :=
  [[("id", .strV "A"), ("payload", .optV 3)], [("id", .strV "B")]]

/-- Concrete positions map for the `apply_layout_to_nodes` witnesses: only
node A has a position. -/
def witPositions : List (NodeId × Int × Int) := [(str "A", (5, 6))]

/-- Nodes of the diamond example A → B, A → C, B → D, C → D. -/
def diamondNodes : List NodeId := [str "A", str "B", str "C", str "D"]

/-- Edges of the diamond example. -/
def diamondEdges : List Edge :=
  [(str "A", str "B"), (str "A", str "C"), (str "B", str "D"),
   (str "C", str "D")]

/-- The order map restricts on each layer to a bijection onto
`0..layerSize-1`: the multiset of order values over each layer's node list
is exactly `{0, …, size-1}`. -/
def layer_bijection (nbl : List (Nat × List NodeId))
    (orders : List (NodeId × Nat)) : Prop :=
  ∀ pr ∈ nbl, ((pr.2.map fun n => getD orders n 0).Perm
    (List.range pr.2.length))

/-- `n` is the target of an included edge. -/
def has_in_edge (nodes : List NodeId) (edges : List Edge) (n : NodeId) :
    Prop :=
  ∃ e ∈ edges, included nodes e = true ∧ e.2 = n

/-- The invariant on a partial layer map: positive layers only for targets
of included edges. -/
def layers_inv (nodes : List NodeId) (edges : List Edge)
    (d : List (NodeId × Nat)) : Prop :=
  ∀ n L, d.lookup n = some L → 1 ≤ L → has_in_edge nodes edges n

/-! ## C3: empty-input behaviour -/

/-- C3 counterexample: on an empty node list the metrics dict the code
returns has no `total_nodes` and no `total_edges` key at all — the claim
asserts all five keys are present with value 0. -/
theorem C3_cex_empty_metrics_missing_keys :
    ((compute_layout_positions pyhash0 [] [] 250 200 8).2.1.lookup
      "total_nodes" = none) ∧
    ((compute_layout_positions pyhash0 [] [] 250 200 8).2.1.lookup
      "total_edges" = none) := by
  exact ⟨rfl, rfl⟩

/-- C3 (amended): calling `compute_layout_positions` with an empty node list
and any edge list returns exactly an empty positions map, the three-key
metrics dict {crossings: 0, layers: 0, max_layer_width: 0} (the
`total_nodes` and `total_edges` keys are absent on this path), and an empty
layer map, without raising. -/
theorem C3_empty_graph_safety (h : NodeId → Nat) (edges : List Edge)
    (node_spacing layer_separation : Int) (iterations : Nat) :
    compute_layout_positions h [] edges node_spacing layer_separation
      iterations =
      ([], [("crossings", 0), ("layers", 0), ("max_layer_width", 0)], []) :=
  rfl

set_option maxRecDepth 40000

/-! ## C2: self-loop tolerance (counterexample part) -/

/-- C2 counterexample: on nodes {A, B} with edge A → B, adding the self-loop
(A, A) moves node B from layer 1 at position (0, 200) to layer 0 at position
(125, 0): the self-loop is counted in A's in-degree, A is never dequeued,
and B falls back to layer 0 — so a self-loop does change the layer and the
position of another node.  (No barycenter hash fallback is consulted on
either input: every swept layer has at most one node or is the only
layer.) -/
theorem C2_cex_self_loop_moves_other_node :
    ((compute_layout_positions pyhash0 selfLoopNodes selfLoopEdgesBase
        250 200 8).1.lookup (str "B") = some (0, 200)) ∧
    ((compute_layout_positions pyhash0 selfLoopNodes selfLoopEdgesLoop
        250 200 8).1.lookup (str "B") = some (125, 0)) ∧
    ((compute_layout_positions pyhash0 selfLoopNodes selfLoopEdgesBase
        250 200 8).2.2.lookup (str "B") = some 1) ∧
    ((compute_layout_positions pyhash0 selfLoopNodes selfLoopEdgesLoop
        250 200 8).2.2.lookup (str "B") = some 0) := by
  refine ⟨by decide, by decide, by decide, by decide⟩

/-! ## C4: cross-process determinism -/

/-- C4: the barycenter fallback uses the runtime string hash, which Python
randomizes per process.  `pyhashRun1` and `pyhashRun2` are two possible
per-process instantiations of that hash; on the graph A → D with isolated
nodes B and C (which are childless, so the bottom-up sweep of layer 0 falls
back to the hash for them) the two runs produce different positions maps —
refuting the claim that two runs in different processes always yield
identical output, and exhibiting that the fallback is not a fixed explicit
hash. -/
theorem C4_hash_randomization_breaks_determinism :
    compute_layout_positions pyhashRun1 hashExNodes hashExEdges 250 200 8 ≠
    compute_layout_positions pyhashRun2 hashExNodes hashExEdges 250 200 8 := by
  decide

/-! ## C5: heuristic monotonicity -/

/-- C5 counterexample: on `crossExNodes`/`crossExEdges` the full ordering
pipeline produces 2 crossings while the naive ordering that sorts each
layer's ids lexicographically (`crossExNaive`) produces 0 — the bottom-layer
regrouping resolves a position tie between the parent sets {m,n,o} and {a,o}
by key order and swaps p and q.  (The hash fallback is never consulted:
every node outside the deepest layer has a child.) -/
theorem C5_cex_pipeline_worse_than_naive :
    (count_edge_crossings (nodes_by_layer_of crossExNodes
        (assign_layers crossExNodes crossExEdges)) crossExEdges
      (pipeline_orders pyhash0 crossExNodes crossExEdges 8)
      (assign_layers crossExNodes crossExEdges) = 2) ∧
    (count_edge_crossings (nodes_by_layer_of crossExNodes
        (assign_layers crossExNodes crossExEdges)) crossExEdges
      crossExNaive
      (assign_layers crossExNodes crossExEdges) = 0) := by
  refine ⟨by decide, by decide⟩

/-- C5 (amended): the crossing count of the pipeline's final order is not in
general bounded by the naive lexicographic order's count; the heuristic can
also strictly improve on the naive order, as on `crossImpNodes` where the
naive order has 1 crossing and the pipeline order none. -/
theorem C5_pipeline_can_beat_naive :
    (count_edge_crossings (nodes_by_layer_of crossImpNodes
        (assign_layers crossImpNodes crossImpEdges)) crossImpEdges
      (pipeline_orders pyhash0 crossImpNodes crossImpEdges 8)
      (assign_layers crossImpNodes crossImpEdges) = 0) ∧
    (count_edge_crossings (nodes_by_layer_of crossImpNodes
        (assign_layers crossImpNodes crossImpEdges)) crossImpEdges
      crossImpNaive
      (assign_layers crossImpNodes crossImpEdges) = 1) := by
  refine ⟨by decide, by decide⟩

/-! ## C6: leaf grouping contiguity (counterexample part) -/

/-- C6 counterexample: with duplicated edges the regrouping keys the bottom
layer by parent-id multisets, not sets.  On `dupExNodes`/`dupExEdges` the
bottom-layer nodes g1 and g2 both have parent-id set {u,w,z} (multisets
[u,u,w,z] and [u,w,z]) but gm, whose parent set is {u,z} (multiset
[u,u,z]), receives the order index strictly between them: all three groups
tie at position 0 and the multiset keys sort (u,u,w,z) < (u,u,z) <
(u,w,z). -/
theorem C6_cex_duplicate_edges_break_contiguity :
    ((pipeline_orders pyhash0 dupExNodes dupExEdges 8).lookup (str "g1") =
      some 0) ∧
    ((pipeline_orders pyhash0 dupExNodes dupExEdges 8).lookup (str "gm") =
      some 1) ∧
    ((pipeline_orders pyhash0 dupExNodes dupExEdges 8).lookup (str "g2") =
      some 2) ∧
    (getD (parents_map dupExNodes dupExEdges) (str "g1") [] =
      [str "u", str "u", str "w", str "z"]) ∧
    (getD (parents_map dupExNodes dupExEdges) (str "gm") [] =
      [str "u", str "u", str "z"]) ∧
    (getD (parents_map dupExNodes dupExEdges) (str "g2") [] =
      [str "u", str "w", str "z"]) ∧
    (sortStr (getD (parents_map dupExNodes dupExEdges) (str "g1") []).dedup =
      sortStr (getD (parents_map dupExNodes dupExEdges) (str "g2") []).dedup) ∧
    (sortStr (getD (parents_map dupExNodes dupExEdges) (str "gm") []).dedup ≠
      sortStr (getD (parents_map dupExNodes dupExEdges) (str "g1") []).dedup) := by
  refine ⟨by decide, by decide, by decide, by decide, by decide, by decide,
    by decide, by decide⟩

/-! ## C7: position formula (counterexample part) -/

/-- C7 counterexample: with an odd `node_spacing = 251` and a two-node layer
{A, B}, the code's `start_x = -total_width // 2` is Python floor division of
a negative value: A lands at x = -126, whereas the claimed formula
`start_x = -floor(((count-1)*node_spacing)/2)` gives -125. -/
theorem C7_cex_start_x_rounds_down_not_up :
    ((compute_layout_positions pyhash0 [str "A", str "B"] [] 251 200 8).1.lookup
      (str "A") = some (-126, 0)) ∧
    (-(Int.fdiv ((2 - 1) * 251) 2) = -125) ∧
    ((-126 : Int) ≠ -125) := by
  refine ⟨by decide, by decide, by decide⟩

/-! ## C9 / C10: `apply_layout_to_nodes` -/


theorem apply_one_length (positions : List (NodeId × Int × Int)) (heap : Heap)
    (r : Nat) : (apply_one positions heap r).1.length = heap.length + 1 := by
  unfold apply_one
  dsimp only
  split
  · split <;> simp
  · simp

theorem apply_one_addr (positions : List (NodeId × Int × Int)) (heap : Heap)
    (r : Nat) : (apply_one positions heap r).2 = heap.length := by
  unfold apply_one
  dsimp only
  split
  · split <;> simp
  · simp

theorem apply_one_frame (positions : List (NodeId × Int × Int)) (heap : Heap)
    (r a : Nat) (ha : a < heap.length) :
    (apply_one positions heap r).1[a]? = heap[a]? := by
  unfold apply_one
  have hne : heap.length ≠ a := Nat.ne_of_gt ha
  dsimp only
  split
  · split
    · simp only [List.getElem?_set_ne hne, List.getElem?_append, if_pos ha]
    · simp [List.getElem?_append, ha]
  · simp [List.getElem?_append, ha]

theorem apply_one_new (positions : List (NodeId × Int × Int)) (heap : Heap)
    (r : Nat) :
    (apply_one positions heap r).1[heap.length]? =
      some (layout_record positions (heap.getD r [])) := by
  unfold apply_one layout_record
  have hlen : heap.length < (heap ++ [heap.getD r []]).length := by simp
  dsimp only
  split
  · split
    · simp only [List.getElem?_set_eq hlen]
    · simp [List.getElem?_concat_length]
  · simp [List.getElem?_concat_length]

theorem apply_layout_length (positions : List (NodeId × Int × Int)) :
    ∀ (refs : List Nat) (heap : Heap),
      (apply_layout_to_nodes positions heap refs).1.length =
        heap.length + refs.length
  | [], heap => by simp [apply_layout_to_nodes]
  | r :: rs, heap => by
    simp only [apply_layout_to_nodes]
    rw [apply_layout_length positions rs]
    rw [apply_one_length]
    simp
    omega

theorem apply_layout_frame (positions : List (NodeId × Int × Int)) :
    ∀ (refs : List Nat) (heap : Heap) (a : Nat), a < heap.length →
      (apply_layout_to_nodes positions heap refs).1[a]? = heap[a]?
  | [], heap, a, _ => by simp [apply_layout_to_nodes]
  | r :: rs, heap, a, ha => by
    simp only [apply_layout_to_nodes]
    rw [apply_layout_frame positions rs _ a
      (by rw [apply_one_length]; omega)]
    exact apply_one_frame positions heap r a ha

theorem apply_layout_addrs (positions : List (NodeId × Int × Int)) :
    ∀ (refs : List Nat) (heap : Heap),
      (apply_layout_to_nodes positions heap refs).2 =
        List.range' heap.length refs.length 1
  | [], heap => by simp [apply_layout_to_nodes]
  | r :: rs, heap => by
    simp only [apply_layout_to_nodes, List.length_cons, List.range'_succ]
    rw [apply_one_addr, apply_layout_addrs positions rs, apply_one_length]

theorem apply_layout_content (positions : List (NodeId × Int × Int)) :
    ∀ (refs : List Nat) (heap : Heap), (∀ r ∈ refs, r < heap.length) →
      ∀ i, i < refs.length →
      (apply_layout_to_nodes positions heap refs).1[heap.length + i]? =
        some (layout_record positions (heap.getD (refs.getD i 0) []))
  | r :: rs, heap, href, 0, _ => by
    simp only [apply_layout_to_nodes, Nat.add_zero]
    rw [apply_layout_frame positions rs _ heap.length
      (by rw [apply_one_length]; omega)]
    simpa using apply_one_new positions heap r
  | r :: rs, heap, href, i + 1, hi => by
    simp only [apply_layout_to_nodes]
    have hlen1 : (apply_one positions heap r).1.length = heap.length + 1 :=
      apply_one_length positions heap r
    have hi2 : i < rs.length := by simpa using Nat.lt_of_succ_lt_succ hi
    have hr : rs.getD i 0 < heap.length := by
      refine href _ (List.mem_cons_of_mem r ?_)
      rw [List.getD_eq_getElem rs 0 hi2]
      exact List.getElem_mem hi2
    have hrec :
        (apply_one positions heap r).1.getD (rs.getD i 0) [] =
          heap.getD (rs.getD i 0) [] := by
      rw [List.getD_eq_getElem?_getD ((apply_one positions heap r).1),
        List.getD_eq_getElem?_getD heap,
        apply_one_frame positions heap r _ hr]
    have ih := apply_layout_content positions rs (apply_one positions heap r).1
      (fun x hx => by
        rw [hlen1]
        exact Nat.lt_succ_of_lt (href x (List.mem_cons_of_mem r hx)))
      i (by simpa using Nat.lt_of_succ_lt_succ hi)
    rw [hlen1] at ih
    have : heap.length + (i + 1) = heap.length + 1 + i := by omega
    rw [this]
    rw [ih, hrec]
    simp

/-- C9: `apply_layout_to_nodes` returns a fresh list of fresh node records —
the returned references are exactly the newly allocated addresses
`heap.length, heap.length+1, …` — each a copy of the corresponding input
node record with `x` and `y` set from the positions map (`layout_record`),
and it leaves every pre-existing heap cell, in particular every input node
record, unmodified. -/
theorem C9_apply_layout_pure (positions : List (NodeId × Int × Int))
    (heap : Heap) (refs : List Nat) (href : ∀ r ∈ refs, r < heap.length) :
    (∀ a, a < heap.length →
      (apply_layout_to_nodes positions heap refs).1[a]? = heap[a]?) ∧
    ((apply_layout_to_nodes positions heap refs).2 =
      List.range' heap.length refs.length 1) ∧
    (∀ i, i < refs.length →
      (apply_layout_to_nodes positions heap refs).1[heap.length + i]? =
        some (layout_record positions (heap.getD (refs.getD i 0) []))) :=
  ⟨fun a ha => apply_layout_frame positions refs heap a ha,
   apply_layout_addrs positions refs heap,
   fun i hi => apply_layout_content positions refs heap href i hi⟩



/-- Witness for C9 at a concrete heap, reference list and positions map. -/
theorem C9_apply_layout_pure_witness :
    (∀ r ∈ ([0, 1] : List Nat), r < witHeap.length) ∧
    ((∀ a, a < witHeap.length →
      (apply_layout_to_nodes witPositions witHeap [0, 1]).1[a]? = witHeap[a]?) ∧
    ((apply_layout_to_nodes witPositions witHeap [0, 1]).2 =
      List.range' witHeap.length 2 1) ∧
    (∀ i, i < ([0, 1] : List Nat).length →
      (apply_layout_to_nodes witPositions witHeap [0, 1]).1[witHeap.length + i]? =
        some (layout_record witPositions (witHeap.getD (([0, 1] : List Nat).getD i 0) [])))) :=
  ⟨by decide, C9_apply_layout_pure witPositions witHeap [0, 1] (by decide)⟩

/-- C10: `apply_layout_to_nodes` preserves the length and order of the input
node list (the i-th returned reference is the copy of the i-th input node),
and a node whose id has no entry in the positions map is still included, as
an exact copy of the input record with no `x` or `y` field added. -/
theorem C10_apply_layout_keeps_missing_nodes
    (positions : List (NodeId × Int × Int)) (heap : Heap) (refs : List Nat)
    (href : ∀ r ∈ refs, r < heap.length) :
    ((apply_layout_to_nodes positions heap refs).2.length = refs.length) ∧
    (∀ i, i < refs.length →
      ∀ s, record_id (heap.getD (refs.getD i 0) []) = some s →
      positions.lookup s = none →
      (apply_layout_to_nodes positions heap refs).1[heap.length + i]? =
        some (heap.getD (refs.getD i 0) [])) := by
  constructor
  · rw [apply_layout_addrs positions refs heap, List.length_range']
  · intro i hi s hs hnone
    rw [apply_layout_content positions refs heap href i hi]
    unfold layout_record
    rw [hs]
    simp only [hnone]

/-- Witness for C10 at a concrete input: node B has no position entry and is
returned as an unmodified copy. -/
theorem C10_apply_layout_keeps_missing_nodes_witness :
    (∀ r ∈ ([0, 1] : List Nat), r < witHeap.length) ∧
    (((apply_layout_to_nodes witPositions witHeap [0, 1]).2.length =
      ([0, 1] : List Nat).length) ∧
    (∀ i, i < ([0, 1] : List Nat).length →
      ∀ s, record_id (witHeap.getD (([0, 1] : List Nat).getD i 0) []) = some s →
      witPositions.lookup s = none →
      (apply_layout_to_nodes witPositions witHeap [0, 1]).1[witHeap.length + i]? =
        some (witHeap.getD (([0, 1] : List Nat).getD i 0) []))) :=
  ⟨by decide,
   C10_apply_layout_keeps_missing_nodes witPositions witHeap [0, 1] (by decide)⟩

/-! ## Association-list dictionary lemmas -/

theorem lookup_cons_key [BEq α] [LawfulBEq α] [DecidableEq α] (x : α) (w : β)
    (rest : List (α × β)) (k' : α) :
    List.lookup k' ((x, w) :: rest) =
      if k' = x then some w else List.lookup k' rest := by
  by_cases h : k' = x
  · subst h
    simp [List.lookup_cons]
  · rw [List.lookup_cons, if_neg h,
      show (k' == x) = false from beq_eq_false_iff_ne.mpr h]

theorem lookup_setk [BEq α] [LawfulBEq α] [DecidableEq α] (d : List (α × β))
    (k : α) (v : β) (k' : α) :
    (setk d k v).lookup k' = if k' = k then some v else d.lookup k' := by
  induction d with
  | nil => simp [setk, lookup_cons_key]
  | cons hd tl ih =>
    obtain ⟨k0, v0⟩ := hd
    by_cases h0 : k0 = k
    · subst h0
      simp only [setk, beq_self_eq_true, if_true, lookup_cons_key]
      by_cases h1 : k' = k0 <;> simp [h1]
    · simp only [setk, beq_iff_eq, h0, if_false, lookup_cons_key, ih]
      by_cases h1 : k' = k0
      · subst h1
        simp [h0]
      · simp [h1]

theorem lookup_appendAt [BEq α] [LawfulBEq α] [DecidableEq α]
    (d : List (α × List β)) (k : α) (v : β) (k' : α) :
    (appendAt d k v).lookup k' =
      if k' = k then some (getD d k [] ++ [v]) else d.lookup k' := by
  induction d with
  | nil => simp [appendAt, lookup_cons_key, getD]
  | cons hd tl ih =>
    obtain ⟨k0, v0⟩ := hd
    by_cases h0 : k0 = k
    · subst h0
      simp only [appendAt, beq_self_eq_true, if_true, lookup_cons_key, getD]
      by_cases h1 : k' = k0
      · subst h1
        simp [List.lookup_cons]
      · simp [h1]
    · simp only [appendAt, beq_iff_eq, h0, if_false, lookup_cons_key, ih, getD]
      by_cases h1 : k' = k0
      · subst h1
        simp [h0, lookup_cons_key]
      · by_cases h2 : k' = k
        · simp [h1, h2, lookup_cons_key, Ne.symm h0]
        · simp [h1, h2]

theorem lookup_addAt [BEq α] [LawfulBEq α] [DecidableEq α]
    (d : List (α × Int)) (k : α) (n : Int) (k' : α) :
    (addAt d k n).lookup k' =
      if k' = k then some (getD d k 0 + n) else d.lookup k' := by
  induction d with
  | nil => simp [addAt, lookup_cons_key, getD]
  | cons hd tl ih =>
    obtain ⟨k0, v0⟩ := hd
    by_cases h0 : k0 = k
    · subst h0
      simp only [addAt, beq_self_eq_true, if_true, lookup_cons_key, getD]
      by_cases h1 : k' = k0
      · subst h1
        simp [List.lookup_cons]
      · simp [h1]
    · simp only [addAt, beq_iff_eq, h0, if_false, lookup_cons_key, ih, getD]
      by_cases h1 : k' = k0
      · subst h1
        simp [h0, lookup_cons_key]
      · by_cases h2 : k' = k
        · simp [h1, h2, lookup_cons_key, Ne.symm h0]
        · simp [h1, h2]

/-! ## Coverage of the positions map -/

theorem appendAt_mem_preserved [BEq α] [LawfulBEq α] {d : List (α × List β)}
    {n : β} (k : α) (v : β) (hp : ∃ pr ∈ d, n ∈ pr.2) :
    ∃ pr ∈ appendAt d k v, n ∈ pr.2 := by
  induction d with
  | nil => simp at hp
  | cons hd tl ih =>
    obtain ⟨k0, v0⟩ := hd
    obtain ⟨pr, hpr, hn⟩ := hp
    by_cases h0 : k0 = k
    · subst h0
      simp only [appendAt, beq_self_eq_true, if_true]
      rcases List.mem_cons.mp hpr with h | h
      · subst h
        exact ⟨(k0, v0 ++ [v]), List.mem_cons_self _ _,
          List.mem_append_left _ hn⟩
      · exact ⟨pr, List.mem_cons_of_mem _ h, hn⟩
    · simp only [appendAt, beq_iff_eq, h0, if_false]
      rcases List.mem_cons.mp hpr with h | h
      · subst h
        exact ⟨(k0, v0), List.mem_cons_self _ _, hn⟩
      · obtain ⟨pr2, hpr2, hn2⟩ := ih ⟨pr, h, hn⟩
        exact ⟨pr2, List.mem_cons_of_mem _ hpr2, hn2⟩

theorem appendAt_mem_added [BEq α] [LawfulBEq α] (d : List (α × List β))
    (k : α) (v : β) : ∃ pr ∈ appendAt d k v, v ∈ pr.2 := by
  induction d with
  | nil =>
    exact ⟨(k, [v]), List.mem_singleton_self _, List.mem_singleton_self _⟩
  | cons hd tl ih =>
    obtain ⟨k0, v0⟩ := hd
    by_cases h0 : k0 = k
    · subst h0
      simp only [appendAt, beq_self_eq_true, if_true]
      exact ⟨(k0, v0 ++ [v]), List.mem_cons_self _ _,
        List.mem_append_right _ (List.mem_singleton_self _)⟩
    · simp only [appendAt, beq_iff_eq, h0, if_false]
      obtain ⟨pr, hpr, hv⟩ := ih
      exact ⟨pr, List.mem_cons_of_mem _ hpr, hv⟩

theorem foldl_appendAt_covers [BEq α] [LawfulBEq α] {n : β} (key : β → α) :
    ∀ (l : List β) (acc : List (α × List β)),
      (n ∈ l ∨ ∃ pr ∈ acc, n ∈ pr.2) →
      ∃ pr ∈ l.foldl (fun d nid => appendAt d (key nid) nid) acc, n ∈ pr.2
  | [], acc, h => by
    rcases h with h | h
    · cases h
    · simpa using h
  | hd :: tl, acc, h => by
    simp only [List.foldl_cons]
    refine foldl_appendAt_covers key tl (appendAt acc (key hd) hd) ?_
    rcases h with h | h
    · rcases List.mem_cons.mp h with h | h
      · subst h
        exact Or.inr (appendAt_mem_added acc (key n) n)
      · exact Or.inl h
    · exact Or.inr (appendAt_mem_preserved (key hd) hd h)

/-- Every input node appears in some layer list of `nodes_by_layer`. -/
theorem nodes_by_layer_covers (nodes : List NodeId)
    (node_layers : List (NodeId × Nat)) (n : NodeId) (hn : n ∈ nodes) :
    ∃ pr ∈ nodes_by_layer_of nodes node_layers, n ∈ pr.2 :=
  foldl_appendAt_covers (fun nid => getD node_layers nid 0) nodes []
    (Or.inl hn)

theorem foldl_setk_isSome (f : Nat × NodeId → Int × Int) :
    ∀ (xs : List (Nat × NodeId)) (ps : List (NodeId × Int × Int)) (n : NodeId),
      ((ps.lookup n).isSome ∨ ∃ q ∈ xs, q.2 = n) →
      ((xs.foldl (fun ps q => setk ps q.2 (f q)) ps).lookup n).isSome
  | [], ps, n, h => by
    rcases h with h | h
    · simpa using h
    · simp at h
  | hd :: tl, ps, n, h => by
    simp only [List.foldl_cons]
    refine foldl_setk_isSome f tl (setk ps hd.2 (f hd)) n ?_
    rcases h with h | h
    · refine Or.inl ?_
      rw [lookup_setk]
      split_ifs <;> simp [h]
    · obtain ⟨q, hq, hqn⟩ := h
      rcases List.mem_cons.mp hq with h2 | h2
      · subst h2
        refine Or.inl ?_
        rw [lookup_setk, if_pos hqn.symm]
        rfl
      · exact Or.inr ⟨q, h2, hqn⟩

theorem positions_layer_step_isSome (o : List (NodeId × Nat))
    (sp sep : Int) (acc : List (NodeId × Int × Int) × Nat)
    (p : Nat × List NodeId) (n : NodeId)
    (h : (acc.1.lookup n).isSome ∨ n ∈ p.2) :
    ((positions_layer_step o sp sep acc p).1.lookup n).isSome := by
  unfold positions_layer_step
  dsimp only
  refine foldl_setk_isSome _ _ _ n ?_
  rcases h with h | h
  · exact Or.inl h
  · refine Or.inr ?_
    have hrow : n ∈ layer_row o p.2 :=
      ((List.perm_insertionSort _ p.2).mem_iff).mpr h
    have : n ∈ (layer_row o p.2).enum.map Prod.snd := by
      rw [List.enum_map_snd]
      exact hrow
    obtain ⟨q, hq, hqn⟩ := List.mem_map.mp this
    exact ⟨q, hq, hqn⟩

theorem positions_fold_isSome (o : List (NodeId × Nat)) (sp sep : Int)
    (n : NodeId) :
    ∀ (nbl : List (Nat × List NodeId)) (acc : List (NodeId × Int × Int) × Nat),
      ((acc.1.lookup n).isSome ∨ ∃ pr ∈ nbl, n ∈ pr.2) →
      ((nbl.foldl (positions_layer_step o sp sep) acc).1.lookup n).isSome
  | [], acc, h => by
    rcases h with h | h
    · simpa using h
    · simp at h
  | hd :: tl, acc, h => by
    simp only [List.foldl_cons]
    refine positions_fold_isSome o sp sep n tl _ ?_
    rcases h with h | h
    · exact Or.inl (positions_layer_step_isSome o sp sep acc hd n (Or.inl h))
    · obtain ⟨pr, hpr, hn⟩ := h
      rcases List.mem_cons.mp hpr with h2 | h2
      · subst h2
        exact Or.inl (positions_layer_step_isSome o sp sep acc pr n (Or.inr hn))
      · exact Or.inr ⟨pr, h2, hn⟩

/-- The positions map of `compute_layout_positions` has an entry for every
input node id (for any edge list — dangling edges and self-loops
included). -/
theorem positions_cover (h : NodeId → Nat) (nodes : List NodeId)
    (edges : List Edge) (sp sep : Int) (it : Nat) (n : NodeId)
    (hn : n ∈ nodes) :
    ∃ p, (compute_layout_positions h nodes edges sp sep it).1.lookup n =
      some p := by
  rw [← Option.isSome_iff_exists]
  unfold compute_layout_positions
  have hne : nodes.isEmpty = false := by
    cases nodes
    · cases hn
    · rfl
  rw [hne]
  dsimp only
  unfold positions_calc
  exact positions_fold_isSome _ sp sep n _ _
    (Or.inr (nodes_by_layer_covers nodes (assign_layers nodes edges) n hn))

/-- C2 (amended): adding a self-loop edge (source == target, both an
existing node id) to the edge list never makes the pipeline fail —
`compute_layout_positions` still returns a positions map with an entry for
every node id.  However, the self-loop is NOT excluded from the in-degree
counts used by the layering queue, and it can change the layers and
positions of other nodes (see the counterexample). -/
theorem C2_self_loop_total (h : NodeId → Nat) (nodes : List NodeId)
    (edges : List Edge) (u : NodeId) (sp sep : Int) (it : Nat)
    (hu : u ∈ nodes) (n : NodeId) (hn : n ∈ nodes) :
    ∃ p, (compute_layout_positions h nodes (edges ++ [(u, u)]) sp sep
      it).1.lookup n = some p :=
  positions_cover h nodes (edges ++ [(u, u)]) sp sep it n hn

/-- Witness for C2 (amended) on the concrete self-loop example. -/
theorem C2_self_loop_total_witness :
    (str "A" ∈ selfLoopNodes) ∧ (str "B" ∈ selfLoopNodes) ∧
    ∃ p, (compute_layout_positions pyhash0 selfLoopNodes
      (selfLoopEdgesBase ++ [(str "A", str "A")]) 250 200 8).1.lookup
        (str "B") = some p :=
  ⟨by decide, by decide,
   C2_self_loop_total pyhash0 selfLoopNodes selfLoopEdgesBase (str "A")
     250 200 8 (by decide) (str "B") (by decide)⟩

/-! ## Order/position assignment machinery -/

theorem lookup_mem [BEq α] [LawfulBEq α] {d : List (α × β)} {k : α} {v : β}
    (h : d.lookup k = some v) : (k, v) ∈ d := by
  induction d with
  | nil => cases h
  | cons hd tl ih =>
    obtain ⟨k0, v0⟩ := hd
    by_cases h0 : k = k0
    · subst h0
      simp only [List.lookup_cons, beq_self_eq_true] at h
      cases h
      exact List.mem_cons_self _ _
    · rw [List.lookup_cons,
        show (k == k0) = false from beq_eq_false_iff_ne.mpr h0] at h
      exact List.mem_cons_of_mem _ (ih h)

theorem foldl_setk_enumFrom {β : Type} (f : Nat × NodeId → β) :
    ∀ (xs : List NodeId) (k : Nat) (ps : List (NodeId × β)), xs.Nodup →
      (∀ n, n ∉ xs →
        ((List.enumFrom k xs).foldl (fun acc q => setk acc q.2 (f q))
          ps).lookup n = ps.lookup n) ∧
      (∀ i, i < xs.length →
        ((List.enumFrom k xs).foldl (fun acc q => setk acc q.2 (f q))
          ps).lookup (xs.getD i []) = some (f (k + i, xs.getD i [])))
  | [], k, ps, _ => by
    constructor
    · intro n _
      simp [List.enumFrom]
    · intro i hi
      simp at hi
  | hd :: tl, k, ps, hnd => by
    have hnd2 := hnd
    rw [List.nodup_cons] at hnd2
    obtain ⟨hhd, htl⟩ := hnd2
    have ih := foldl_setk_enumFrom f tl (k + 1) (setk ps hd (f (k, hd))) htl
    constructor
    · intro n hn
      simp only [List.enumFrom_cons, List.foldl_cons]
      rw [ih.1 n (fun hmem => hn (List.mem_cons_of_mem _ hmem))]
      rw [lookup_setk,
        if_neg (fun he => hn (by rw [he]; exact List.mem_cons_self _ _))]
    · intro i hi
      match i with
      | 0 =>
        simp only [List.enumFrom_cons, List.foldl_cons, List.getD_cons_zero,
          Nat.add_zero]
        rw [ih.1 hd hhd, lookup_setk, if_pos rfl]
      | i + 1 =>
        simp only [List.enumFrom_cons, List.foldl_cons, List.getD_cons_succ]
        have hi2 : i < tl.length := by simpa using Nat.lt_of_succ_lt_succ hi
        rw [ih.2 i hi2]
        have : k + 1 + i = k + (i + 1) := by omega
        rw [this]

theorem assign_orders_not_mem (d : List (NodeId × Nat))
    (flat : List NodeId) (hnd : flat.Nodup) (n : NodeId) (hn : n ∉ flat) :
    (assign_orders d flat).lookup n = d.lookup n := by
  have := (foldl_setk_enumFrom (fun q => q.1) flat 0 d hnd).1 n hn
  simpa [assign_orders, List.enum] using this

theorem assign_orders_getD (d : List (NodeId × Nat)) (flat : List NodeId)
    (hnd : flat.Nodup) (i : Nat) (hi : i < flat.length) :
    (assign_orders d flat).lookup (flat.getD i []) = some i := by
  have := (foldl_setk_enumFrom (fun q => q.1) flat 0 d hnd).2 i hi
  simpa [assign_orders, List.enum] using this

/-- After an order assignment over a duplicate-free node list, the order
values over that list are exactly 0, 1, …, len-1. -/
theorem assign_orders_values (d : List (NodeId × Nat)) (flat : List NodeId)
    (hnd : flat.Nodup) :
    flat.map (fun n => getD (assign_orders d flat) n 0) =
      List.range flat.length := by
  apply List.ext_getElem
  · simp
  · intro i h1 h2
    simp only [List.getElem_map, List.getElem_range]
    have hi : i < flat.length := by simpa using h1
    have hg : flat.getD i [] = flat[i] := List.getD_eq_getElem flat [] hi
    have := assign_orders_getD d flat hnd i hi
    rw [hg] at this
    simp [getD, this]

/-! ## Structure of `nodes_by_layer` and the groups dict -/

theorem appendAt_flatten_perm [BEq α] [LawfulBEq α] (d : List (α × List β))
    (k : α) (v : β) :
    ((appendAt d k v).map (fun pr => pr.2)).flatten.Perm
      ((d.map (fun pr => pr.2)).flatten ++ [v]) := by
  induction d with
  | nil => simp [appendAt]
  | cons hd tl ih =>
    obtain ⟨k0, v0⟩ := hd
    by_cases h0 : k0 = k
    · subst h0
      simp only [appendAt, beq_self_eq_true, if_true, List.map_cons,
        List.flatten_cons]
      have h := List.Perm.append_left v0
        (@List.perm_append_comm _ [v] ((tl.map (fun pr => pr.2)).flatten))
      simpa [List.append_assoc] using h
    · simp only [appendAt, beq_iff_eq, h0, if_false, List.map_cons,
        List.flatten_cons]
      refine (List.Perm.append_left v0 ih).trans ?_
      exact List.Perm.of_eq (by rw [List.append_assoc])

theorem foldl_appendAt_flatten_perm [BEq α] [LawfulBEq α] (key : β → α) :
    ∀ (l : List β) (acc : List (α × List β)),
      ((l.foldl (fun d x => appendAt d (key x) x) acc).map
        (fun pr => pr.2)).flatten.Perm
        ((acc.map (fun pr => pr.2)).flatten ++ l)
  | [], acc => by simp
  | hd :: tl, acc => by
    simp only [List.foldl_cons]
    refine (foldl_appendAt_flatten_perm key tl _).trans ?_
    refine ((appendAt_flatten_perm acc (key hd) hd).append_right tl).trans ?_
    exact List.Perm.of_eq (by simp)

/-- The concatenation of the per-layer node lists is a permutation of the
input node list. -/
theorem nodes_by_layer_flatten_perm (nodes : List NodeId)
    (nl : List (NodeId × Nat)) :
    ((nodes_by_layer_of nodes nl).map (fun pr => pr.2)).flatten.Perm nodes := by
  have := foldl_appendAt_flatten_perm (fun nid => getD nl nid 0) nodes []
  simpa [nodes_by_layer_of] using this

/-! ## The position formula (C7) -/

theorem layer_row_perm (o : List (NodeId × Nat)) (ns : List NodeId) :
    (layer_row o ns).Perm ns :=
  List.perm_insertionSort _ ns

theorem positions_layer_step_frame (o : List (NodeId × Nat)) (sp sep : Int)
    (acc : List (NodeId × Int × Int) × Nat) (p : Nat × List NodeId)
    (hnd : p.2.Nodup) (n : NodeId) (hn : n ∉ p.2) :
    (positions_layer_step o sp sep acc p).1.lookup n = acc.1.lookup n := by
  unfold positions_layer_step
  dsimp only
  have hrow : ¬n ∈ layer_row o p.2 := fun hm =>
    hn ((layer_row_perm o p.2).mem_iff.mp hm)
  have hnd2 : (layer_row o p.2).Nodup :=
    ((layer_row_perm o p.2).nodup_iff).mpr hnd
  have := (foldl_setk_enumFrom
    (fun q => (start_x_of p.2.length sp + (q.1 : Int) * sp, (p.1 : Int) * sep))
    (layer_row o p.2) 0 acc.1 hnd2).1 n hrow
  simpa [List.enum, start_x_of] using this

theorem positions_layer_step_assign (o : List (NodeId × Nat)) (sp sep : Int)
    (acc : List (NodeId × Int × Int) × Nat) (p : Nat × List NodeId)
    (hnd : p.2.Nodup) (i : Nat) (hi : i < (layer_row o p.2).length) :
    (positions_layer_step o sp sep acc p).1.lookup
      ((layer_row o p.2).getD i []) =
      some (start_x_of p.2.length sp + (i : Int) * sp, (p.1 : Int) * sep) := by
  unfold positions_layer_step
  dsimp only
  have hnd2 : (layer_row o p.2).Nodup :=
    ((layer_row_perm o p.2).nodup_iff).mpr hnd
  have := (foldl_setk_enumFrom
    (fun q => (start_x_of p.2.length sp + (q.1 : Int) * sp, (p.1 : Int) * sep))
    (layer_row o p.2) 0 acc.1 hnd2).2 i hi
  simpa [List.enum, start_x_of] using this

theorem positions_fold_frame (o : List (NodeId × Nat)) (sp sep : Int) :
    ∀ (nbl : List (Nat × List NodeId)) (acc : List (NodeId × Int × Int) × Nat)
      (n : NodeId), (∀ pr ∈ nbl, n ∉ pr.2) → (∀ pr ∈ nbl, pr.2.Nodup) →
      ((nbl.foldl (positions_layer_step o sp sep) acc).1.lookup n =
        acc.1.lookup n)
  | [], acc, n, _, _ => rfl
  | hd :: tl, acc, n, hn, hnd => by
    simp only [List.foldl_cons]
    rw [positions_fold_frame o sp sep tl _ n
      (fun pr hpr => hn pr (List.mem_cons_of_mem _ hpr))
      (fun pr hpr => hnd pr (List.mem_cons_of_mem _ hpr))]
    exact positions_layer_step_frame o sp sep acc hd
      (hnd hd (List.mem_cons_self _ _)) n (hn hd (List.mem_cons_self _ _))

theorem positions_fold_assign (o : List (NodeId × Nat)) (sp sep : Int) :
    ∀ (nbl : List (Nat × List NodeId)) (acc : List (NodeId × Int × Int) × Nat),
      ((nbl.map (fun pr => pr.2)).flatten.Nodup) →
      ∀ pr ∈ nbl, ∀ i, i < (layer_row o pr.2).length →
      ((nbl.foldl (positions_layer_step o sp sep) acc).1.lookup
        ((layer_row o pr.2).getD i []) =
        some (start_x_of pr.2.length sp + (i : Int) * sp, (pr.1 : Int) * sep))
  | [], _, _, pr, hpr, _, _ => absurd hpr (List.not_mem_nil pr)
  | hd :: tl, acc, hflat, pr, hpr, i, hi => by
    simp only [List.map_cons, List.flatten_cons, List.nodup_append] at hflat
    obtain ⟨hhd, htl, hdisj⟩ := hflat
    have htlnodup : ∀ q ∈ tl, q.2.Nodup := by
      intro q hq
      exact (List.nodup_flatten.mp htl).1 q.2 (List.mem_map_of_mem _ hq)
    simp only [List.foldl_cons]
    rcases List.mem_cons.mp hpr with h | h
    · subst h
      have hmem : (layer_row o pr.2).getD i [] ∈ pr.2 := by
        rw [List.getD_eq_getElem _ [] hi]
        exact (layer_row_perm o pr.2).mem_iff.mp (List.getElem_mem hi)
      rw [positions_fold_frame o sp sep tl _ _ ?hnotin htlnodup]
      · exact positions_layer_step_assign o sp sep acc pr hhd i hi
      case hnotin =>
        intro q hq hmem2
        exact hdisj hmem
          (List.mem_flatten.mpr ⟨q.2, List.mem_map_of_mem _ hq, hmem2⟩)
    · exact positions_fold_assign o sp sep tl _ htl pr h i hi



/-- C7 (amended): for every layer `ℓ` with node list `ns` and every order
index `i < ns.length`, the node at index `i` of the layer's row (the layer
sorted by final order) is assigned exactly
`x = start_x + i * node_spacing` and `y = ℓ * layer_separation`, where
`start_x = (-(count-1) * node_spacing).fdiv 2` — Python's floor division
`-total_width // 2`, which equals `-ceil(total_width / 2)`, NOT the claimed
`-floor(total_width / 2)` — for layers of more than one node and 0
otherwise.  Consequently y depends only on the layer index and x only on the
within-layer order index. -/
theorem C7_position_formula (h : NodeId → Nat) (nodes : List NodeId)
    (edges : List Edge) (sp sep : Int) (it : Nat) (hnd : nodes.Nodup)
    (ℓ : Nat) (ns : List NodeId)
    (hl : (nodes_by_layer_of nodes (assign_layers nodes edges)).lookup ℓ =
      some ns)
    (i : Nat) (hi : i < ns.length) :
    (compute_layout_positions h nodes edges sp sep it).1.lookup
      ((layer_row (pipeline_orders h nodes edges it) ns).getD i []) =
      some (start_x_of ns.length sp + (i : Int) * sp, (ℓ : Int) * sep) := by
  have hne : nodes.isEmpty = false := by
    cases hcs : nodes with
    | nil =>
      subst hcs
      simp [nodes_by_layer_of] at hl
    | cons a l => rfl
  unfold compute_layout_positions pipeline_orders
  rw [hne]
  dsimp only
  unfold positions_calc
  have hflat := ((nodes_by_layer_flatten_perm nodes
    (assign_layers nodes edges)).nodup_iff).mpr hnd
  have hpr : (ℓ, ns) ∈ nodes_by_layer_of nodes (assign_layers nodes edges) :=
    lookup_mem hl
  have hi2 : i < (layer_row (barycenter_ordering h
      (nodes_by_layer_of nodes (assign_layers nodes edges))
      (children_map nodes edges) (parents_map nodes edges) it) ns).length := by
    rw [(layer_row_perm _ ns).length_eq]
    exact hi
  exact positions_fold_assign _ sp sep _ ([], 0) hflat (ℓ, ns) hpr i hi2

/-- Witness for C7 (amended) on the diamond graph: layer 1 is {B, C}, and
the node at order index 0 of that row sits at
(start_x_of 2 250 + 0·250, 1·200) = (-125, 200). -/
theorem C7_position_formula_witness :
    diamondNodes.Nodup ∧
    ((nodes_by_layer_of diamondNodes
      (assign_layers diamondNodes diamondEdges)).lookup 1 =
        some [str "B", str "C"]) ∧
    (0 < ([str "B", str "C"] : List NodeId).length) ∧
    ((compute_layout_positions pyhash0 diamondNodes diamondEdges 250 200
        8).1.lookup
      ((layer_row (pipeline_orders pyhash0 diamondNodes diamondEdges 8)
        [str "B", str "C"]).getD 0 []) =
      some (start_x_of 2 250 + (0 : Int) * 250, (1 : Int) * 200)) :=
  ⟨by decide, by decide, by decide,
   C7_position_formula pyhash0 diamondNodes diamondEdges 250 200 8 (by decide)
     1 [str "B", str "C"] (by decide) 0 (by decide)⟩

/-! ## Per-layer bijection machinery (C8) -/


theorem lookup_none_of_not_mem_keys [BEq α] [LawfulBEq α]
    {d : List (α × β)} {k : α} (h : k ∉ d.map fun kv => kv.1) :
    d.lookup k = none := by
  induction d with
  | nil => rfl
  | cons hd tl ih =>
    simp only [List.map_cons, List.mem_cons] at h
    push_neg at h
    rw [List.lookup_cons, show (k == hd.1) = false from beq_eq_false_iff_ne.mpr h.1]
    exact ih h.2

theorem lookup_dupdate_none [BEq α] [LawfulBEq α] [DecidableEq α]
    (d1 : List (α × β)) :
    ∀ (d2 : List (α × β)) (k : α), d2.lookup k = none →
      (dupdate d1 d2).lookup k = d1.lookup k := by
  intro d2
  induction d2 generalizing d1 with
  | nil => intro k _; rfl
  | cons hd tl ih =>
    intro k hk
    rw [lookup_cons_key] at hk
    by_cases h0 : k = hd.1
    · rw [if_pos h0] at hk
      cases hk
    · rw [if_neg h0] at hk
      show (dupdate (setk d1 hd.1 hd.2) tl).lookup k = d1.lookup k
      rw [ih (setk d1 hd.1 hd.2) k hk, lookup_setk, if_neg h0]

theorem lookup_dupdate_some [BEq α] [LawfulBEq α] [DecidableEq α]
    (d1 : List (α × β)) :
    ∀ (d2 : List (α × β)), (d2.map fun kv => kv.1).Nodup →
      ∀ (k : α) (v : β), d2.lookup k = some v →
      (dupdate d1 d2).lookup k = some v := by
  intro d2
  induction d2 generalizing d1 with
  | nil => intro _ k v hk; cases hk
  | cons hd tl ih =>
    intro hnd k v hk
    simp only [List.map_cons, List.nodup_cons] at hnd
    rw [lookup_cons_key] at hk
    by_cases h0 : k = hd.1
    · rw [if_pos h0] at hk
      cases hk
      show (dupdate (setk d1 hd.1 hd.2) tl).lookup k = some hd.2
      rw [lookup_dupdate_none _ tl k
        (lookup_none_of_not_mem_keys (h0 ▸ hnd.1)), lookup_setk, if_pos h0]
    · rw [if_neg h0] at hk
      exact ih (setk d1 hd.1 hd.2) hnd.2 k v hk

theorem mem_keys_setk [BEq α] [LawfulBEq α] {d : List (α × β)} {k k' : α}
    {v : β} (h : k' ∈ (setk d k v).map fun kv => kv.1) :
    k' ∈ (d.map fun kv => kv.1) ∨ k' = k := by
  induction d with
  | nil =>
    simp only [setk, List.map_cons, List.map_nil, List.mem_singleton] at h
    exact Or.inr h
  | cons hd tl ih =>
    by_cases h0 : hd.1 = k
    · obtain ⟨k0, v0⟩ := hd
      simp only at h0
      subst h0
      simp only [setk, beq_self_eq_true, if_true, List.map_cons,
        List.mem_cons] at h
      rcases h with h | h
      · exact Or.inl (by simp [h])
      · exact Or.inl (by simp [h])
    · obtain ⟨k0, v0⟩ := hd
      simp only at h0
      simp only [setk, beq_iff_eq, h0, if_false, List.map_cons,
        List.mem_cons] at h
      rcases h with h | h
      · exact Or.inl (by simp [h])
      · rcases ih h with h2 | h2
        · exact Or.inl (List.mem_cons_of_mem _ h2)
        · exact Or.inr h2

theorem setk_keys_nodup [BEq α] [LawfulBEq α] {d : List (α × β)} (k : α)
    (v : β) (hnd : (d.map fun kv => kv.1).Nodup) :
    ((setk d k v).map fun kv => kv.1).Nodup := by
  induction d with
  | nil => simp [setk]
  | cons hd tl ih =>
    obtain ⟨k0, v0⟩ := hd
    simp only [List.map_cons, List.nodup_cons] at hnd
    by_cases h0 : k0 = k
    · subst h0
      simp only [setk, beq_self_eq_true, if_true, List.map_cons,
        List.nodup_cons]
      exact hnd
    · simp only [setk, beq_iff_eq, h0, if_false, List.map_cons,
        List.nodup_cons]
      refine ⟨fun hm => ?_, ih hnd.2⟩
      rcases mem_keys_setk hm with h2 | h2
      · exact hnd.1 h2
      · exact h0 h2

theorem assign_orders_keys_nodup (flat : List NodeId)
    (d : List (NodeId × Nat)) (hnd : (d.map fun kv => kv.1).Nodup) :
    ((assign_orders d flat).map fun kv => kv.1).Nodup := by
  unfold assign_orders
  generalize flat.enum = xs
  induction xs generalizing d with
  | nil => exact hnd
  | cons hd tl ih =>
    simp only [List.foldl_cons]
    exact ih _ (setk_keys_nodup hd.2 hd.1 hnd)

theorem assign_orders_keys_subset (flat : List NodeId)
    (d : List (NodeId × Nat)) (k : NodeId)
    (hk : k ∈ (assign_orders d flat).map fun kv => kv.1) :
    k ∈ (d.map fun kv => kv.1) ∨ k ∈ flat := by
  unfold assign_orders at hk
  have main : ∀ (xs : List (Nat × NodeId)) (d : List (NodeId × Nat)),
      k ∈ ((xs.foldl (fun acc p => setk acc p.2 p.1) d).map fun kv => kv.1) →
      k ∈ (d.map fun kv => kv.1) ∨ k ∈ xs.map fun p => p.2 := by
    intro xs
    induction xs with
    | nil => intro d h; exact Or.inl h
    | cons hd tl ih =>
      intro d h
      rcases ih _ h with h2 | h2
      · rcases mem_keys_setk h2 with h3 | h3
        · exact Or.inl h3
        · exact Or.inr (by simp [h3])
      · exact Or.inr (List.mem_cons_of_mem _ h2)
  rcases main flat.enum d hk with h | h
  · exact Or.inl h
  · refine Or.inr ?_
    rw [List.enum_map_snd] at h
    exact h

theorem nbl_lists_nodup {nbl : List (Nat × List NodeId)}
    (hflat : ((nbl.map fun pr => pr.2).flatten).Nodup) :
    ∀ pr ∈ nbl, pr.2.Nodup := fun pr hpr =>
  (List.nodup_flatten.mp hflat).1 pr.2 (List.mem_map_of_mem _ hpr)

theorem nbl_lists_eq_or_disjoint {nbl : List (Nat × List NodeId)}
    (hflat : ((nbl.map fun pr => pr.2).flatten).Nodup) :
    ∀ pr ∈ nbl, ∀ pr' ∈ nbl, pr.2 = pr'.2 ∨ pr.2.Disjoint pr'.2 := by
  intro pr hpr pr' hpr'
  by_cases he : pr.2 = pr'.2
  · exact Or.inl he
  · refine Or.inr ?_
    have hpw := (List.nodup_flatten.mp hflat).2
    exact hpw.forall (fun _ _ hd => hd.symm)
      (List.mem_map_of_mem _ hpr) (List.mem_map_of_mem _ hpr') he

/-- Rewriting the orders of one layer (any operation that only touches the
keys of a set `S` that is a permutation of one of the layer lists, and whose
values over `S` form a permutation of `0..|S|-1`) preserves the per-layer
bijection property. -/
theorem layer_bijection_update {nbl : List (Nat × List NodeId)}
    (hflat : ((nbl.map fun pr => pr.2).flatten).Nodup)
    (o o' : List (NodeId × Nat)) (S : List NodeId)
    (hS : S = [] ∨ ∃ pr ∈ nbl, S.Perm pr.2)
    (hframe : ∀ n, n ∉ S → o'.lookup n = o.lookup n)
    (hvals : ((S.map fun n => getD o' n 0)).Perm (List.range S.length))
    (hb : layer_bijection nbl o) : layer_bijection nbl o' := by
  intro pr hpr
  have hcongr : ∀ (l : List NodeId), (∀ n ∈ l, n ∉ S) →
      (l.map fun n => getD o' n 0) = l.map fun n => getD o n 0 := by
    intro l hl
    refine List.map_congr_left fun n hn => ?_
    unfold getD
    rw [hframe n (hl n hn)]
  rcases hS with hS | ⟨pr0, hpr0, hSperm⟩
  · subst hS
    rw [hcongr pr.2 (fun n _ hn => (List.not_mem_nil n) hn)]
    exact hb pr hpr
  · rcases nbl_lists_eq_or_disjoint hflat pr hpr pr0 hpr0 with he | hd
    · have h1 : ((pr.2.map fun n => getD o' n 0)).Perm
          (S.map fun n => getD o' n 0) := by
        refine List.Perm.map _ ?_
        rw [he]
        exact hSperm.symm
      refine h1.trans (hvals.trans ?_)
      rw [hSperm.length_eq, ← he]
    · rw [hcongr pr.2 (fun n hn hns =>
        hd hn (hSperm.mem_iff.mp hns))]
      exact hb pr hpr

/-- Reordering one layer by sorted barycenters preserves the per-layer
bijection property. -/
theorem reorder_layer_bijection (h : NodeId → Nat)
    {nbl : List (Nat × List NodeId)}
    (hflat : ((nbl.map fun pr => pr.2).flatten).Nodup)
    (layer : Nat) (ns : List NodeId) (hns : (layer, ns) ∈ nbl)
    (adj : List NodeId) (neigh : List (NodeId × List NodeId))
    (o : List (NodeId × Nat)) (hb : layer_bijection nbl o) :
    layer_bijection nbl (reorder_layer h ns adj neigh o) := by
  have hnsnd : ns.Nodup := nbl_lists_nodup hflat (layer, ns) hns
  unfold reorder_layer
  dsimp only
  set nbc := ns.map fun nid =>
    (compute_barycenter h nid adj (getD neigh nid []) o, nid) with hnbc
  set S := (nbc.insertionSort bary_le).map fun p => p.2 with hSdef
  have hSperm : S.Perm ns := by
    have h1 : (nbc.map fun p => p.2) = ns := by
      rw [hnbc, List.map_map]
      exact (List.map_congr_left fun a _ => rfl).trans (List.map_id _)
    exact ((List.perm_insertionSort bary_le nbc).map _).trans
      (List.Perm.of_eq h1)
  have hSnd : S.Nodup := (hSperm.nodup_iff).mpr hnsnd
  refine layer_bijection_update hflat o _ S
    (Or.inr ⟨(layer, ns), hns, hSperm⟩) ?_ ?_ hb
  · intro n hn
    exact assign_orders_not_mem o S hSnd n hn
  · exact List.Perm.of_eq (assign_orders_values o S hSnd)

theorem foldl_preserve {P : β → Prop} (f : β → α → β)
    (hf : ∀ b a, P b → P (f b a)) :
    ∀ (l : List α) (b : β), P b → P (l.foldl f b)
  | [], b, hb => hb
  | hd :: tl, b, hb => by
    simp only [List.foldl_cons]
    exact foldl_preserve f hf tl (f b hd) (hf b hd hb)

/-- Reordering the layer list found in the dict (when it has more than one
node) preserves the per-layer bijection property. -/
theorem reorder_layer_bijection_getD (h : NodeId → Nat)
    {nbl : List (Nat × List NodeId)}
    (hflat : ((nbl.map fun pr => pr.2).flatten).Nodup)
    (layer : Nat) (hlen : ¬(getD nbl layer []).length ≤ 1)
    (adj : List NodeId) (neigh : List (NodeId × List NodeId))
    (o : List (NodeId × Nat)) (hb : layer_bijection nbl o) :
    layer_bijection nbl (reorder_layer h (getD nbl layer []) adj neigh o) := by
  cases hq : nbl.lookup layer with
  | none =>
    exfalso
    apply hlen
    unfold getD
    rw [hq]
    simp
  | some ns =>
    have hg : getD nbl layer [] = ns := by
      unfold getD
      rw [hq]
      rfl
    rw [hg]
    exact reorder_layer_bijection h hflat layer ns (lookup_mem hq) adj neigh
      o hb

/-- One top-down sweep pass preserves the per-layer bijection property. -/
theorem td_pass_bijection (h : NodeId → Nat)
    {nbl : List (Nat × List NodeId)}
    (hflat : ((nbl.map fun pr => pr.2).flatten).Nodup)
    (parents : List (NodeId × List NodeId)) (layer_numbers : List Nat)
    (o : List (NodeId × Nat)) (hb : layer_bijection nbl o) :
    layer_bijection nbl (td_pass h nbl parents layer_numbers o) := by
  unfold td_pass
  refine foldl_preserve _ ?_ _ o hb
  intro ord idx hord
  show layer_bijection nbl
    (if idx == 0 then ord
     else
       if (getD nbl (layer_numbers.getD idx 0) []).length ≤ 1 then ord
       else reorder_layer h (getD nbl (layer_numbers.getD idx 0) [])
         (getD nbl (layer_numbers.getD idx 0 - 1) []) parents ord)
  by_cases h0 : (idx == 0) = true
  · rw [if_pos h0]; exact hord
  · rw [if_neg h0]
    by_cases h1 : (getD nbl (layer_numbers.getD idx 0) []).length ≤ 1
    · rw [if_pos h1]; exact hord
    · rw [if_neg h1]
      exact reorder_layer_bijection_getD h hflat _ h1 _ parents ord hord

/-- One bottom-up sweep pass preserves the per-layer bijection property. -/
theorem bu_pass_bijection (h : NodeId → Nat)
    {nbl : List (Nat × List NodeId)}
    (hflat : ((nbl.map fun pr => pr.2).flatten).Nodup)
    (children : List (NodeId × List NodeId)) (layer_numbers : List Nat)
    (o : List (NodeId × Nat)) (hb : layer_bijection nbl o) :
    layer_bijection nbl (bu_pass h nbl children layer_numbers o) := by
  unfold bu_pass
  refine foldl_preserve _ ?_ _ o hb
  intro ord idx hord
  show layer_bijection nbl
    (if idx == layer_numbers.length - 1 then ord
     else
       if (getD nbl (layer_numbers.getD idx 0) []).length ≤ 1 then ord
       else reorder_layer h (getD nbl (layer_numbers.getD idx 0) [])
         (getD nbl (layer_numbers.getD idx 0 + 1) []) children ord)
  by_cases h0 : (idx == layer_numbers.length - 1) = true
  · rw [if_pos h0]; exact hord
  · rw [if_neg h0]
    by_cases h1 : (getD nbl (layer_numbers.getD idx 0) []).length ≤ 1
    · rw [if_pos h1]; exact hord
    · rw [if_neg h1]
      exact reorder_layer_bijection_getD h hflat _ h1 _ children ord hord

theorem init_fold_frame :
    ∀ (tl : List (Nat × List NodeId)) (d : List (NodeId × Nat)) (n : NodeId),
      (∀ q ∈ tl, n ∉ q.2) → (∀ q ∈ tl, q.2.Nodup) →
      (tl.foldl (fun d p => assign_orders d (sortStr p.2)) d).lookup n =
        d.lookup n
  | [], d, n, _, _ => rfl
  | hd :: tl, d, n, hn, hnd => by
    simp only [List.foldl_cons]
    rw [init_fold_frame tl _ n (fun q hq => hn q (List.mem_cons_of_mem _ hq))
      (fun q hq => hnd q (List.mem_cons_of_mem _ hq))]
    have hsnd : (sortStr hd.2).Nodup :=
      ((List.perm_insertionSort _ hd.2).nodup_iff).mpr
        (hnd hd (List.mem_cons_self _ _))
    refine assign_orders_not_mem d _ hsnd n fun hm => ?_
    exact hn hd (List.mem_cons_self _ _)
      ((List.perm_insertionSort _ hd.2).mem_iff.mp hm)

theorem init_fold_assign :
    ∀ (nbl : List (Nat × List NodeId)) (d : List (NodeId × Nat)),
      ((nbl.map fun pr => pr.2).flatten).Nodup →
      ∀ pr ∈ nbl,
        ((pr.2.map fun n =>
          getD (nbl.foldl (fun d p => assign_orders d (sortStr p.2)) d) n 0).Perm
          (List.range pr.2.length))
  | [], _, _, pr, hpr => absurd hpr (List.not_mem_nil pr)
  | hd :: tl, d, hflat, pr, hpr => by
    simp only [List.map_cons, List.flatten_cons, List.nodup_append] at hflat
    obtain ⟨hhd, htl, hdisj⟩ := hflat
    have htlnodup : ∀ q ∈ tl, q.2.Nodup := by
      intro q hq
      exact (List.nodup_flatten.mp htl).1 q.2 (List.mem_map_of_mem _ hq)
    simp only [List.foldl_cons]
    rcases List.mem_cons.mp hpr with h | h
    · subst h
      have hsnd : (sortStr pr.2).Nodup :=
        ((List.perm_insertionSort _ pr.2).nodup_iff).mpr hhd
      have hpoint : ∀ n ∈ pr.2,
          getD (tl.foldl (fun d p => assign_orders d (sortStr p.2))
            (assign_orders d (sortStr pr.2))) n 0 =
          getD (assign_orders d (sortStr pr.2)) n 0 := by
        intro n hn
        unfold getD
        rw [init_fold_frame tl _ n ?hnot htlnodup]
        case hnot =>
          intro q hq hm
          exact hdisj hn
            (List.mem_flatten.mpr ⟨q.2, List.mem_map_of_mem _ hq, hm⟩)
      rw [List.map_congr_left hpoint]
      have hvals := assign_orders_values d (sortStr pr.2) hsnd
      have hmapperm : ((pr.2.map fun n =>
          getD (assign_orders d (sortStr pr.2)) n 0)).Perm
          ((sortStr pr.2).map fun n =>
            getD (assign_orders d (sortStr pr.2)) n 0) :=
        List.Perm.map _ (List.perm_insertionSort _ pr.2).symm
      refine hmapperm.trans ?_
      rw [hvals]
      have hlen : (sortStr pr.2).length = pr.2.length :=
        List.Perm.length_eq (List.perm_insertionSort _ pr.2)
      rw [hlen]
    · exact init_fold_assign tl _ htl pr h

/-- The initial lexicographic order is a per-layer bijection. -/
theorem init_orders_bijection (nbl : List (Nat × List NodeId))
    (hflat : ((nbl.map fun pr => pr.2).flatten).Nodup) :
    layer_bijection nbl (init_orders nbl) :=
  fun pr hpr => init_fold_assign nbl [] hflat pr hpr

theorem sweep_orders_bijection (h : NodeId → Nat)
    {nbl : List (Nat × List NodeId)}
    (hflat : ((nbl.map fun pr => pr.2).flatten).Nodup)
    (children parents : List (NodeId × List NodeId))
    (layer_numbers : List Nat) (iterations : Nat) :
    layer_bijection nbl
      (sweep_orders h nbl children parents layer_numbers iterations) := by
  unfold sweep_orders
  refine foldl_preserve _ ?_ _ _ (init_orders_bijection nbl hflat)
  intro ord _ hord
  exact bu_pass_bijection h hflat children layer_numbers _
    (td_pass_bijection h hflat parents layer_numbers ord hord)

theorem flatten_map_sortStr_perm :
    ∀ (L : List (List NodeId)), ((L.map sortStr).flatten).Perm L.flatten
  | [] => List.Perm.refl _
  | hd :: tl => by
    simp only [List.map_cons, List.flatten_cons]
    exact (List.perm_insertionSort _ hd).append (flatten_map_sortStr_perm tl)

/-- The flattened, group-sorted bottom layer of
`order_bottom_layer_by_support` is a permutation of the bottom layer. -/
theorem obls_flat_perm (bottom : List NodeId)
    (parents : List (NodeId × List NodeId))
    (parent_orders : List (NodeId × Nat)) :
    (obls_flat bottom parents parent_orders).Perm bottom := by
  unfold obls_flat sorted_groups_of
  have h1 := List.Perm.map (fun t : GPos × List NodeId × List NodeId =>
    sortStr t.2.2)
    (List.perm_insertionSort group_le ((build_groups bottom parents).map
      fun g => (group_position parent_orders g.1, g.1, g.2)))
  refine (h1.flatten).trans ?_
  have h2 : (((build_groups bottom parents).map fun g =>
      (group_position parent_orders g.1, g.1, g.2)).map
        fun t => sortStr t.2.2) =
      ((build_groups bottom parents).map fun pr => pr.2).map sortStr := by
    rw [List.map_map, List.map_map]
    rfl
  rw [h2]
  refine (flatten_map_sortStr_perm _).trans ?_
  have h3 := foldl_appendAt_flatten_perm (group_key_of parents) bottom
    ([] : List (List NodeId × List NodeId))
  simpa [build_groups] using h3

/-- Replacing the bottom layer's orders with the regrouped assignment
preserves the per-layer bijection property. -/
theorem regroup_bijection (h : NodeId → Nat)
    {nbl : List (Nat × List NodeId)}
    (hflat : ((nbl.map fun pr => pr.2).flatten).Nodup)
    (layer : Nat) (ns : List NodeId) (hns : (layer, ns) ∈ nbl)
    (parents : List (NodeId × List NodeId)) (o : List (NodeId × Nat))
    (hb : layer_bijection nbl o) :
    layer_bijection nbl
      (dupdate o (order_bottom_layer_by_support ns parents o)) := by
  have hnsnd : ns.Nodup := nbl_lists_nodup hflat (layer, ns) hns
  unfold order_bottom_layer_by_support
  set flat := obls_flat ns parents o with hflatdef
  have hperm : flat.Perm ns := obls_flat_perm ns parents o
  have hfnd : flat.Nodup := (hperm.nodup_iff).mpr hnsnd
  have hkeysnd : ((assign_orders [] flat).map fun kv => kv.1).Nodup :=
    assign_orders_keys_nodup flat [] (by simp)
  refine layer_bijection_update hflat o _ flat
    (Or.inr ⟨(layer, ns), hns, hperm⟩) ?_ ?_ hb
  · intro n hn
    refine lookup_dupdate_none o _ n (lookup_none_of_not_mem_keys fun hm => ?_)
    rcases assign_orders_keys_subset flat [] n hm with h2 | h2
    · simp at h2
    · exact hn h2
  · have hpoint : ∀ n ∈ flat,
        getD (dupdate o (assign_orders [] flat)) n 0 =
          getD (assign_orders [] flat) n 0 := by
      intro n hn
      obtain ⟨i, hi, hget⟩ := List.mem_iff_getElem.mp hn
      have hlk : (assign_orders [] flat).lookup n = some i := by
        rw [← hget, ← List.getD_eq_getElem flat [] hi]
        exact assign_orders_getD [] flat hfnd i hi
      unfold getD
      rw [lookup_dupdate_some o _ hkeysnd n i hlk, hlk]
    rw [List.map_congr_left hpoint]
    exact List.Perm.of_eq (assign_orders_values [] flat hfnd)

/-- The final order map of `barycenter_ordering` is a per-layer bijection. -/
theorem barycenter_ordering_bijection (h : NodeId → Nat)
    {nbl : List (Nat × List NodeId)}
    (hflat : ((nbl.map fun pr => pr.2).flatten).Nodup)
    (children parents : List (NodeId × List NodeId)) (iterations : Nat) :
    layer_bijection nbl
      (barycenter_ordering h nbl children parents iterations) := by
  unfold barycenter_ordering
  have hsw := sweep_orders_bijection h hflat children parents
    (sortNat (nbl.map fun p => p.1)) iterations
  by_cases he : (sortNat (nbl.map fun p => p.1)).isEmpty = true
  · rw [if_pos he]
    exact hsw
  · rw [if_neg he]
    dsimp only
    by_cases hc : 1 < (getD nbl (sortNat (nbl.map fun p => p.1)).getLast! []).length ∧
        1 < (sortNat (nbl.map fun p => p.1)).length
    · rw [if_pos hc]
      cases hq : nbl.lookup (sortNat (nbl.map fun p => p.1)).getLast! with
      | none =>
        exfalso
        have : getD nbl (sortNat (nbl.map fun p => p.1)).getLast! [] = [] := by
          unfold getD
          rw [hq]
          rfl
        rw [this] at hc
        simp at hc
      | some ns =>
        have hg : getD nbl (sortNat (nbl.map fun p => p.1)).getLast! [] = ns := by
          unfold getD
          rw [hq]
          rfl
        rw [hg]
        exact regroup_bijection h hflat _ ns (lookup_mem hq) parents _ hsw
    · rw [if_neg hc]
      exact hsw

/-- C8: for every input with unique node ids, the order map restricts on
each layer to a bijection onto the contiguous range `0..layerSize-1`
(`layer_bijection`): it holds after the lexicographic initialization, it is
preserved by every top-down and every bottom-up sweep pass, and it holds for
the final order map of the pipeline (including the bottom-layer
regrouping). -/
theorem C8_order_map_bijection (h : NodeId → Nat) (nodes : List NodeId)
    (edges : List Edge) (iterations : Nat) (hnd : nodes.Nodup) :
    layer_bijection (nodes_by_layer_of nodes (assign_layers nodes edges))
      (init_orders (nodes_by_layer_of nodes (assign_layers nodes edges))) ∧
    (∀ (layer_numbers : List Nat) (o : List (NodeId × Nat)),
      layer_bijection (nodes_by_layer_of nodes (assign_layers nodes edges)) o →
      layer_bijection (nodes_by_layer_of nodes (assign_layers nodes edges))
        (td_pass h (nodes_by_layer_of nodes (assign_layers nodes edges))
          (parents_map nodes edges) layer_numbers o)) ∧
    (∀ (layer_numbers : List Nat) (o : List (NodeId × Nat)),
      layer_bijection (nodes_by_layer_of nodes (assign_layers nodes edges)) o →
      layer_bijection (nodes_by_layer_of nodes (assign_layers nodes edges))
        (bu_pass h (nodes_by_layer_of nodes (assign_layers nodes edges))
          (children_map nodes edges) layer_numbers o)) ∧
    layer_bijection (nodes_by_layer_of nodes (assign_layers nodes edges))
      (pipeline_orders h nodes edges iterations) := by
  have hflat : (((nodes_by_layer_of nodes (assign_layers nodes edges)).map
      fun pr => pr.2).flatten).Nodup :=
    ((nodes_by_layer_flatten_perm nodes (assign_layers nodes edges)).nodup_iff).mpr
      hnd
  refine ⟨init_orders_bijection _ hflat, ?_, ?_, ?_⟩
  · intro layer_numbers o hb
    exact td_pass_bijection h hflat _ layer_numbers o hb
  · intro layer_numbers o hb
    exact bu_pass_bijection h hflat _ layer_numbers o hb
  · unfold pipeline_orders
    exact barycenter_ordering_bijection h hflat _ _ iterations

/-- Witness for C8 on the diamond graph. -/
theorem C8_order_map_bijection_witness :
    diamondNodes.Nodup ∧
    (layer_bijection (nodes_by_layer_of diamondNodes
        (assign_layers diamondNodes diamondEdges))
      (pipeline_orders pyhash0 diamondNodes diamondEdges 8)) :=
  ⟨by decide,
   (C8_order_map_bijection pyhash0 diamondNodes diamondEdges 8
     (by decide)).2.2.2⟩

/-! ## Characterization of the adjacency and grouping dicts (C6) -/

/-- Generic characterization of a filtered `appendAt` fold: the value list at
key `k` is the old value list extended by the values of the kept elements
whose key is `k`, in order. -/
theorem foldl_appendAt_getD {α β γ : Type} [BEq α] [LawfulBEq α]
    [DecidableEq α] (P : γ → Bool) (key : γ → α) (val : γ → β) :
    ∀ (es : List γ) (d : List (α × List β)) (k : α),
      getD (es.foldl
        (fun d e => if P e then appendAt d (key e) (val e) else d) d) k [] =
      getD d k [] ++
        ((es.filter fun e => P e && (key e == k)).map val)
  | [], d, k => by simp
  | e :: es, d, k => by
    simp only [List.foldl_cons]
    by_cases hp : P e = true
    · rw [if_pos hp]
      rw [foldl_appendAt_getD P key val es _ k]
      by_cases hk : key e = k
      · have : getD (appendAt d (key e) (val e)) k [] =
            getD d k [] ++ [val e] := by
          unfold getD
          rw [lookup_appendAt, if_pos hk.symm]
          subst hk
          rfl
        rw [this, List.filter_cons, List.append_assoc]
        simp [hp, hk]
      · have : getD (appendAt d (key e) (val e)) k [] = getD d k [] := by
          unfold getD
          rw [lookup_appendAt, if_neg (fun he => hk he.symm)]
        rw [this, List.filter_cons]
        have : (P e && (key e == k)) = false := by
          simp [hk]
        rw [this]
        simp
    · rw [if_neg hp]
      rw [foldl_appendAt_getD P key val es d k, List.filter_cons]
      have : (P e && (key e == k)) = false := by simp [hp]
      rw [this]
      simp

/-- The parents list of node `v`: the sources of the included edges with
target `v`, in edge order. -/
theorem parents_map_getD (nodes : List NodeId) (edges : List Edge)
    (v : NodeId) :
    getD (parents_map nodes edges) v [] =
      (edges.filter fun e => included nodes e && (e.2 == v)).map
        fun e => e.1 := by
  have := foldl_appendAt_getD (fun e : Edge => included nodes e)
    (fun e : Edge => e.2) (fun e : Edge => e.1) edges [] v
  simpa [parents_map] using this

/-- The children list of node `u`: the targets of the included edges with
source `u`, in edge order. -/
theorem children_map_getD (nodes : List NodeId) (edges : List Edge)
    (u : NodeId) :
    getD (children_map nodes edges) u [] =
      (edges.filter fun e => included nodes e && (e.1 == u)).map
        fun e => e.2 := by
  have := foldl_appendAt_getD (fun e : Edge => included nodes e)
    (fun e : Edge => e.1) (fun e : Edge => e.2) edges [] u
  simpa [children_map] using this

/-- With no duplicate (source, target) pair in the edge list, every node's
parents list is duplicate-free. -/
theorem parents_map_nodup (nodes : List NodeId) (edges : List Edge)
    (hdup : edges.Nodup) (v : NodeId) :
    (getD (parents_map nodes edges) v []).Nodup := by
  rw [parents_map_getD]
  refine List.Nodup.map_on ?_ ((List.filter_sublist edges).nodup hdup)
  intro x hx y hy hxy
  simp only [List.mem_filter, Bool.and_eq_true, beq_iff_eq] at hx hy
  obtain ⟨x1, x2⟩ := x
  obtain ⟨y1, y2⟩ := y
  simp only at hxy
  simp only at hx hy
  rw [hxy, hx.2.2, hy.2.2]

theorem appendAt_cons {α β : Type} [BEq α] (k0 : α) (l0 : List β)
    (tl : List (α × List β)) (k : α) (v : β) :
    appendAt ((k0, l0) :: tl) k v =
      if k0 == k then (k0, l0 ++ [v]) :: tl
      else (k0, l0) :: appendAt tl k v := rfl

/-- Inserting an element at its own key preserves the invariant that every
member of a bucket carries the bucket's key. -/
theorem appendAt_member_key_step {α β : Type} [BEq α] [LawfulBEq α]
    (keyf : β → α) (x : β) :
    ∀ (d : List (α × List β)), (∀ pr ∈ d, ∀ n ∈ pr.2, keyf n = pr.1) →
      ∀ pr ∈ appendAt d (keyf x) x, ∀ n ∈ pr.2, keyf n = pr.1
  | [], _, pr, hpr, n, hn => by
    simp only [appendAt, List.mem_singleton] at hpr
    subst hpr
    simp only [List.mem_singleton] at hn
    subst hn
    rfl
  | (k0, l0) :: tl, hd, pr, hpr, n, hn => by
    rw [appendAt_cons] at hpr
    by_cases h0 : k0 = keyf x
    · rw [if_pos (beq_iff_eq.mpr h0)] at hpr
      rcases List.mem_cons.mp hpr with h | h
      · subst h
        rcases List.mem_append.mp hn with hn2 | hn2
        · exact hd (k0, l0) (List.mem_cons_self _ _) n hn2
        · rw [List.mem_singleton] at hn2
          subst hn2
          exact h0.symm
      · exact hd pr (List.mem_cons_of_mem _ h) n hn
    · rw [if_neg (fun hb => h0 (by simpa using hb))] at hpr
      rcases List.mem_cons.mp hpr with h | h
      · subst h
        exact hd (k0, l0) (List.mem_cons_self _ _) n hn
      · exact appendAt_member_key_step keyf x tl
          (fun q hq => hd q (List.mem_cons_of_mem _ hq)) pr h n hn

/-- Every member of a bucket of an `appendAt` fold carries the bucket's
key. -/
theorem appendAt_member_key {α β : Type} [BEq α] [LawfulBEq α]
    (keyf : β → α) :
    ∀ (l : List β) (d : List (α × List β)),
      (∀ pr ∈ d, ∀ n ∈ pr.2, keyf n = pr.1) →
      ∀ pr ∈ l.foldl (fun d x => appendAt d (keyf x) x) d,
        ∀ n ∈ pr.2, keyf n = pr.1
  | [], _, hd => hd
  | x :: l, d, hd => by
    simp only [List.foldl_cons]
    exact appendAt_member_key keyf l _ (appendAt_member_key_step keyf x d hd)

/-- The keys of an `appendAt` result. -/
theorem mem_keys_appendAt {α β : Type} [BEq α] [LawfulBEq α]
    {d : List (α × List β)} {k k' : α} {v : β}
    (h : k' ∈ (appendAt d k v).map fun kv => kv.1) :
    k' ∈ (d.map fun kv => kv.1) ∨ k' = k := by
  induction d with
  | nil =>
    simp only [appendAt, List.map_cons, List.map_nil,
      List.mem_singleton] at h
    exact Or.inr h
  | cons hd tl ih =>
    obtain ⟨k0, v0⟩ := hd
    by_cases h0 : k0 = k
    · subst h0
      simp only [appendAt, beq_self_eq_true, if_true, List.map_cons,
        List.mem_cons] at h
      rcases h with h | h
      · exact Or.inl (by simp [h])
      · exact Or.inl (by simp [h])
    · simp only [appendAt, beq_iff_eq, h0, if_false, List.map_cons,
        List.mem_cons] at h
      rcases h with h | h
      · exact Or.inl (by simp [h])
      · rcases ih h with h2 | h2
        · exact Or.inl (List.mem_cons_of_mem _ h2)
        · exact Or.inr h2

/-- `appendAt` preserves duplicate-freeness of the keys. -/
theorem appendAt_keys_nodup {α β : Type} [BEq α] [LawfulBEq α]
    {d : List (α × List β)} (k : α) (v : β)
    (hnd : (d.map fun kv => kv.1).Nodup) :
    ((appendAt d k v).map fun kv => kv.1).Nodup := by
  induction d with
  | nil => simp [appendAt]
  | cons hd tl ih =>
    obtain ⟨k0, v0⟩ := hd
    simp only [List.map_cons, List.nodup_cons] at hnd
    by_cases h0 : k0 = k
    · subst h0
      simp only [appendAt, beq_self_eq_true, if_true, List.map_cons,
        List.nodup_cons]
      exact hnd
    · simp only [appendAt, beq_iff_eq, h0, if_false, List.map_cons,
        List.nodup_cons]
      refine ⟨fun hm => ?_, ih hnd.2⟩
      rcases mem_keys_appendAt hm with h2 | h2
      · exact hnd.1 h2
      · exact h0 h2

/-- Keys of an `appendAt` fold are duplicate-free. -/
theorem foldl_appendAt_keys_nodup {α β : Type} [BEq α] [LawfulBEq α]
    (keyf : β → α) :
    ∀ (l : List β) (d : List (α × List β)),
      ((d.map fun kv => kv.1).Nodup) →
      (((l.foldl (fun d x => appendAt d (keyf x) x) d).map
        fun kv => kv.1).Nodup)
  | [], _, hd => hd
  | x :: l, d, hd => by
    simp only [List.foldl_cons]
    exact foldl_appendAt_keys_nodup keyf l _ (appendAt_keys_nodup _ x hd)

/-! ## Layers of depth at least 1 come from included edges -/



theorem layers_inv_setk0 {nodes : List NodeId} {edges : List Edge}
    {d : List (NodeId × Nat)} (hP : layers_inv nodes edges d) (m : NodeId) :
    layers_inv nodes edges (setk d m 0) := by
  intro n L hn hL
  rw [lookup_setk] at hn
  by_cases h0 : n = m
  · rw [if_pos h0] at hn
    cases hn
    cases hL
  · rw [if_neg h0] at hn
    exact hP n L hn hL

theorem children_map_mem_has_in_edge {nodes : List NodeId}
    {edges : List Edge} {u c : NodeId}
    (hc : c ∈ getD (children_map nodes edges) u []) :
    has_in_edge nodes edges c := by
  rw [children_map_getD] at hc
  obtain ⟨e, he, hec⟩ := List.mem_map.mp hc
  simp only [List.mem_filter, Bool.and_eq_true, beq_iff_eq] at he
  exact ⟨e, he.1, he.2.1, hec⟩

theorem layers_inv_process_child {nodes : List NodeId} {edges : List Edge}
    (L : Nat) {st : KState} (hP : layers_inv nodes edges st.layers)
    (c : NodeId) (hc : has_in_edge nodes edges c) :
    layers_inv nodes edges (process_child L st c).layers := by
  intro n L2 hn hL2
  unfold process_child at hn
  dsimp only at hn
  rw [lookup_setk] at hn
  by_cases h0 : n = c
  · subst h0
    exact hc
  · rw [if_neg h0] at hn
    exact hP n L2 hn hL2

theorem layers_inv_child_fold {nodes : List NodeId} {edges : List Edge}
    (L : Nat) :
    ∀ (cs : List NodeId) (st : KState),
      layers_inv nodes edges st.layers →
      (∀ c ∈ cs, has_in_edge nodes edges c) →
      layers_inv nodes edges ((cs.foldl (process_child L) st)).layers
  | [], st, hP, _ => hP
  | c :: cs, st, hP, hcs => by
    simp only [List.foldl_cons]
    exact layers_inv_child_fold L cs _
      (layers_inv_process_child L hP c (hcs c (List.mem_cons_self _ _)))
      (fun c2 hc2 => hcs c2 (List.mem_cons_of_mem _ hc2))

theorem layers_inv_loop {nodes : List NodeId} {edges : List Edge} :
    ∀ (fuel : Nat) (st : KState), layers_inv nodes edges st.layers →
      layers_inv nodes edges
        ((kahn_loop (children_map nodes edges) fuel st)).layers
  | 0, _, hP => hP
  | fuel + 1, st, hP => by
    unfold kahn_loop
    cases hq : st.queue with
    | nil => exact hP
    | cons u q =>
      refine layers_inv_loop fuel _ ?_
      show layers_inv nodes edges
        ((getD (children_map nodes edges) u []).foldl
          (process_child (getD st.layers u 0)) { st with queue := q }).layers
      exact layers_inv_child_fold _ _ _ hP
        (fun c hc => children_map_mem_has_in_edge hc)

theorem seed_layers_inv (nodes : List NodeId) (edges : List Edge)
    (indeg : List (NodeId × Int)) :
    layers_inv nodes edges (seed_state nodes indeg).1 := by
  unfold seed_state
  have main : ∀ (l : List NodeId) (acc : List (NodeId × Nat) × List NodeId),
      layers_inv nodes edges acc.1 →
      layers_inv nodes edges
        (l.foldl (fun st nid =>
          if getD indeg nid 0 == 0 then (setk st.1 nid 0, st.2 ++ [nid])
          else st) acc).1 := by
    intro l
    induction l with
    | nil => intro acc h; exact h
    | cons hd tl ih =>
      intro acc h
      simp only [List.foldl_cons]
      refine ih _ ?_
      by_cases h0 : (getD indeg hd 0 == 0) = true
      · rw [if_pos h0]
        exact layers_inv_setk0 h hd
      · rw [if_neg h0]
        exact h
  refine main nodes ([], []) ?_
  intro n L hn
  cases hn

/-- Every node assigned a layer of depth at least 1 by `assign_layers` is
the target of an included edge. -/
theorem assign_layers_pos_has_in_edge (nodes : List NodeId)
    (edges : List Edge) (n : NodeId) (L : Nat)
    (hn : (assign_layers nodes edges).lookup n = some L) (hL : 1 ≤ L) :
    has_in_edge nodes edges n := by
  unfold assign_layers at hn
  have base : layers_inv nodes edges (assign_layers_state nodes edges).layers := by
    unfold assign_layers_state
    exact layers_inv_loop _ _ (seed_layers_inv nodes edges _)
  have main : ∀ (l : List NodeId) (d : List (NodeId × Nat)),
      layers_inv nodes edges d →
      layers_inv nodes edges
        (l.foldl (fun ly nid =>
          if (ly.lookup nid).isSome then ly else ly ++ [(nid, 0)]) d) := by
    intro l
    induction l with
    | nil => intro d h; exact h
    | cons hd tl ih =>
      intro d h
      simp only [List.foldl_cons]
      refine ih _ ?_
      by_cases h0 : (d.lookup hd).isSome = true
      · rw [if_pos h0]
        exact h
      · rw [if_neg h0]
        intro n2 L2 hn2 hL2
        rw [List.lookup_append] at hn2
        cases hq : d.lookup n2 with
        | some v =>
          rw [hq] at hn2
          rw [show ((some v).or (List.lookup n2 [(hd, 0)])) = some v from rfl]
            at hn2
          exact h n2 L2 (by rw [hq]; exact hn2) hL2
        | none =>
          rw [hq] at hn2
          simp only [Option.none_or] at hn2
          rw [lookup_cons_key] at hn2
          by_cases h3 : n2 = hd
          · rw [if_pos h3] at hn2
            cases hn2
            cases hL2
          · rw [if_neg h3] at hn2
            cases hn2
  exact main nodes _ base n L hn hL

/-! ## Group keys and bottom-layer contiguity (C6) -/

theorem sortStr_sorted (l : List NodeId) :
    List.Sorted (fun a b : NodeId => a ≤ b) (sortStr l) :=
  List.sorted_insertionSort _ l

/-- On duplicate-free lists, equal membership gives equal sorted lists. -/
theorem sortStr_eq_of_set_eq {l1 l2 : List NodeId} (h1 : l1.Nodup)
    (h2 : l2.Nodup) (hm : ∀ s, s ∈ l1 ↔ s ∈ l2) :
    sortStr l1 = sortStr l2 := by
  have hp : l1.Perm l2 := (List.perm_ext_iff_of_nodup h1 h2).mpr hm
  have hp2 : (sortStr l1).Perm (sortStr l2) :=
    ((List.perm_insertionSort _ l1).trans hp).trans
      (List.perm_insertionSort _ l2).symm
  exact List.eq_of_perm_of_sorted hp2 (sortStr_sorted l1) (sortStr_sorted l2)

/-- Equal sorted lists give equal membership. -/
theorem set_eq_of_sortStr_eq {l1 l2 : List NodeId}
    (h : sortStr l1 = sortStr l2) : ∀ s, s ∈ l1 ↔ s ∈ l2 := by
  intro s
  rw [← (List.perm_insertionSort (fun a b : NodeId => a ≤ b) l1).mem_iff,
    ← (List.perm_insertionSort (fun a b : NodeId => a ≤ b) l2).mem_iff]
  show s ∈ sortStr l1 ↔ s ∈ sortStr l2
  rw [h]

/-- Every member of a group of `build_groups` carries the group's key. -/
theorem build_groups_member_key (bottom : List NodeId)
    (parents : List (NodeId × List NodeId)) :
    ∀ pr ∈ build_groups bottom parents, ∀ n ∈ pr.2,
      group_key_of parents n = pr.1 := by
  have := appendAt_member_key (group_key_of parents) bottom
    ([] : List (List NodeId × List NodeId))
    (fun pr hpr => absurd hpr (List.not_mem_nil pr))
  intro pr hpr n hn
  exact this pr hpr n hn

/-- The group keys of `build_groups` are pairwise distinct. -/
theorem build_groups_keys_nodup (bottom : List NodeId)
    (parents : List (NodeId × List NodeId)) :
    ((build_groups bottom parents).map fun pr => pr.1).Nodup := by
  have := foldl_appendAt_keys_nodup (group_key_of parents) bottom
    ([] : List (List NodeId × List NodeId)) (by simp)
  exact this

/-- A sorted duplicate-free list of at least two naturals ends in a value of
at least 1. -/
theorem sorted_nodup_getLast_pos {l : List Nat}
    (hs : List.Sorted (fun a b : Nat => a ≤ b) l) (hnd : l.Nodup)
    (hlen : 1 < l.length) : 1 ≤ l.getLast! := by
  match l, hlen with
  | a :: b :: rest, _ =>
    have hne : (a :: b :: rest) ≠ [] := List.cons_ne_nil _ _
    have hlast : (a :: b :: rest).getLast! = (a :: b :: rest).getLast hne := rfl
    rw [hlast, List.getLast_eq_getElem]
    have hlt := List.Sorted.lt_of_le hs hnd
    have h01 := List.pairwise_iff_getElem.mp hlt 0 ((a :: b :: rest).length - 1)
      (by simp) (by simp) (by simp)
    omega

/-- Nodes between two equal-key positions of a flattened block list carry
the same key. -/
theorem flatten_key_between {keyf : NodeId → List NodeId} :
    ∀ (L : List (List NodeId)),
      (∀ l ∈ L, ∀ a ∈ l, ∀ b ∈ l, keyf a = keyf b) →
      (List.Pairwise (fun l1 l2 => ∀ a ∈ l1, ∀ b ∈ l2, keyf a ≠ keyf b) L) →
      ∀ i j k, i ≤ j → j ≤ k → k < L.flatten.length →
      keyf (L.flatten.getD i []) = keyf (L.flatten.getD k []) →
      keyf (L.flatten.getD j []) = keyf (L.flatten.getD i [])
  | [], _, _, i, j, k, _, _, hk, _ => by simp at hk
  | l0 :: rest, hconst, hpw, i, j, k, hij, hjk, hk, heq => by
    rw [List.pairwise_cons] at hpw
    simp only [List.flatten_cons] at hk heq ⊢
    rw [List.length_append] at hk
    have hgetlow : ∀ m, m < l0.length →
        (l0 ++ rest.flatten).getD m [] = l0.getD m [] := by
      intro m hm
      rw [List.getD_eq_getElem _ [] (by rw [List.length_append]; omega),
        List.getElem_append_left hm, List.getD_eq_getElem _ [] hm]
    have hgethigh : ∀ m, l0.length ≤ m → m < (l0 ++ rest.flatten).length →
        (l0 ++ rest.flatten).getD m [] = rest.flatten.getD (m - l0.length) [] := by
      intro m hm1 hm2
      rw [List.length_append] at hm2
      rw [List.getD_eq_getElem _ [] (by rw [List.length_append]; omega),
        List.getElem_append_right hm1,
        List.getD_eq_getElem _ [] (by omega)]
    have hmem_l0 : ∀ m, m < l0.length → l0.getD m [] ∈ l0 := by
      intro m hm
      rw [List.getD_eq_getElem _ [] hm]
      exact List.getElem_mem hm
    have hmem_rest : ∀ m, m < rest.flatten.length →
        ∃ l' ∈ rest, rest.flatten.getD m [] ∈ l' := by
      intro m hm
      have : rest.flatten.getD m [] ∈ rest.flatten := by
        rw [List.getD_eq_getElem _ [] hm]
        exact List.getElem_mem hm
      exact List.mem_flatten.mp this
    by_cases hkl : k < l0.length
    · have hil : i < l0.length := by omega
      have hjl : j < l0.length := by omega
      rw [hgetlow i hil, hgetlow j hjl]
      exact hconst l0 (List.mem_cons_self _ _) _ (hmem_l0 j hjl) _
        (hmem_l0 i hil)
    · push_neg at hkl
      by_cases hil : i < l0.length
      · exfalso
        rw [hgetlow i hil,
          hgethigh k hkl (by rw [List.length_append]; omega)] at heq
        have hkm : k - l0.length < rest.flatten.length := by omega
        obtain ⟨l', hl', hmem'⟩ := hmem_rest _ hkm
        exact hpw.1 l' hl' _ (hmem_l0 i hil) _ hmem' heq
      · push_neg at hil
        have hjl : l0.length ≤ j := le_trans hil hij
        rw [hgethigh i hil (by rw [List.length_append]; omega),
          hgethigh k hkl (by rw [List.length_append]; omega)] at heq
        rw [hgethigh i hil (by rw [List.length_append]; omega),
          hgethigh j hjl (by rw [List.length_append]; omega)]
        refine flatten_key_between rest
          (fun l hl => hconst l (List.mem_cons_of_mem _ hl)) hpw.2
          (i - l0.length) (j - l0.length) (k - l0.length)
          (by omega) (by omega) (by omega) heq

/-- Members of a sorted group all carry that group's key. -/
theorem sorted_groups_member_key (bottom : List NodeId)
    (parents : List (NodeId × List NodeId)) (po : List (NodeId × Nat)) :
    ∀ t ∈ sorted_groups_of bottom parents po, ∀ n ∈ sortStr t.2.2,
      group_key_of parents n = t.2.1 := by
  intro t ht n hn
  have ht2 : t ∈ (build_groups bottom parents).map fun g =>
      (group_position po g.1, g.1, g.2) :=
    (List.perm_insertionSort group_le _).mem_iff.mp ht
  obtain ⟨g, hg, hgt⟩ := List.mem_map.mp ht2
  have hn2 : n ∈ t.2.2 := (List.perm_insertionSort _ t.2.2).mem_iff.mp hn
  have := build_groups_member_key bottom parents g hg n (by
    rw [← hgt] at hn2
    exact hn2)
  rw [← hgt]
  exact this

/-- The key lists of the sorted groups are pairwise distinct. -/
theorem sorted_groups_keys_nodup (bottom : List NodeId)
    (parents : List (NodeId × List NodeId)) (po : List (NodeId × Nat)) :
    ((sorted_groups_of bottom parents po).map fun t => t.2.1).Nodup := by
  have hperm : ((sorted_groups_of bottom parents po).map fun t => t.2.1).Perm
      (((build_groups bottom parents).map fun g =>
        (group_position po g.1, g.1, g.2)).map fun t => t.2.1) :=
    List.Perm.map _ (List.perm_insertionSort group_le _)
  rw [hperm.nodup_iff, List.map_map]
  exact build_groups_keys_nodup bottom parents

/-- The blocks of the flattened bottom layer: each is key-constant. -/
theorem obls_blocks_const (bottom : List NodeId)
    (parents : List (NodeId × List NodeId)) (po : List (NodeId × Nat)) :
    ∀ l ∈ (sorted_groups_of bottom parents po).map fun t => sortStr t.2.2,
      ∀ a ∈ l, ∀ b ∈ l, group_key_of parents a = group_key_of parents b := by
  intro l hl a ha b hb
  obtain ⟨t, ht, hlt⟩ := List.mem_map.mp hl
  subst hlt
  rw [sorted_groups_member_key bottom parents po t ht a ha,
    sorted_groups_member_key bottom parents po t ht b hb]

/-- Distinct blocks of the flattened bottom layer never share a key. -/
theorem obls_blocks_pairwise (bottom : List NodeId)
    (parents : List (NodeId × List NodeId)) (po : List (NodeId × Nat)) :
    List.Pairwise (fun l1 l2 => ∀ a ∈ l1, ∀ b ∈ l2,
      group_key_of parents a ≠ group_key_of parents b)
      ((sorted_groups_of bottom parents po).map fun t => sortStr t.2.2) := by
  have hnd := sorted_groups_keys_nodup bottom parents po
  have hpw : List.Pairwise (fun t1 t2 : GPos × List NodeId × List NodeId =>
      t1.2.1 ≠ t2.2.1) (sorted_groups_of bottom parents po) :=
    List.pairwise_map.mp hnd
  rw [List.pairwise_map]
  refine List.Pairwise.imp_of_mem ?_ hpw
  intro t1 t2 ht1 ht2 hne a ha b hb
  rw [sorted_groups_member_key bottom parents po t1 ht1 a ha,
    sorted_groups_member_key bottom parents po t2 ht2 b hb]
  exact hne

/-- `barycenter_ordering` under the regroup conditions: the sweep result
updated with the bottom-layer regrouping. -/
theorem barycenter_ordering_eq_regroup (h : NodeId → Nat)
    (nbl : List (Nat × List NodeId))
    (children parents : List (NodeId × List NodeId)) (it : Nat)
    (hne : (sortNat (nbl.map fun p => p.1)).isEmpty = false)
    (hc : 1 < (getD nbl (sortNat (nbl.map fun p => p.1)).getLast! []).length ∧
      1 < (sortNat (nbl.map fun p => p.1)).length) :
    barycenter_ordering h nbl children parents it =
      dupdate
        (sweep_orders h nbl children parents (sortNat (nbl.map fun p => p.1))
          it)
        (order_bottom_layer_by_support
          (getD nbl (sortNat (nbl.map fun p => p.1)).getLast! []) parents
          (sweep_orders h nbl children parents (sortNat (nbl.map fun p => p.1))
            it)) := by
  unfold barycenter_ordering
  rw [if_neg (by rw [hne]; exact Bool.false_ne_true)]
  dsimp only
  rw [if_pos hc]

/-- The order index of the i-th node of the flattened bottom layer after the
regroup update. -/
theorem regroup_orders_getD (o : List (NodeId × Nat)) (bns : List NodeId)
    (parents : List (NodeId × List NodeId))
    (hfnd : (obls_flat bns parents o).Nodup) (i : Nat)
    (hi : i < (obls_flat bns parents o).length) :
    getD (dupdate o (order_bottom_layer_by_support bns parents o))
      ((obls_flat bns parents o).getD i []) 0 = i := by
  have hkeysnd : ((assign_orders [] (obls_flat bns parents o)).map
      fun kv => kv.1).Nodup :=
    assign_orders_keys_nodup _ [] (by simp)
  have hlk := assign_orders_getD [] (obls_flat bns parents o) hfnd i hi
  unfold order_bottom_layer_by_support getD
  rw [lookup_dupdate_some o _ hkeysnd _ i hlk]
  rfl

/-- C6 (amended): with unique node ids and no duplicate (source, target)
pair in the edge list, in the final order map every bottom-layer node has at
least one parent (so the orphan block clause holds vacuously), and
bottom-layer nodes are grouped contiguously by parent-id set: whenever x and
z have equal parent-id sets and y sits between them in order, y has that
same parent-id set.  (The counterexample shows the duplicate-edge condition
is necessary: the grouping key is the sorted parent multiset.) -/
theorem C6_leaf_grouping_contiguity (h : NodeId → Nat) (nodes : List NodeId)
    (edges : List Edge) (it : Nat) (hnd : nodes.Nodup) (hedup : edges.Nodup)
    (bns : List NodeId)
    (hbns : (nodes_by_layer_of nodes (assign_layers nodes edges)).lookup
      (sortNat ((nodes_by_layer_of nodes (assign_layers nodes edges)).map
        fun p => p.1)).getLast! = some bns)
    (hbig : 1 < bns.length)
    (hlayers : 1 < (sortNat ((nodes_by_layer_of nodes
      (assign_layers nodes edges)).map fun p => p.1)).length) :
    (∀ x ∈ bns, getD (parents_map nodes edges) x [] ≠ []) ∧
    (∀ x ∈ bns, ∀ y ∈ bns, ∀ z ∈ bns,
      (∀ s, s ∈ getD (parents_map nodes edges) x [] ↔
        s ∈ getD (parents_map nodes edges) z []) →
      getD (pipeline_orders h nodes edges it) x 0 ≤
        getD (pipeline_orders h nodes edges it) y 0 →
      getD (pipeline_orders h nodes edges it) y 0 ≤
        getD (pipeline_orders h nodes edges it) z 0 →
      (∀ s, s ∈ getD (parents_map nodes edges) y [] ↔
        s ∈ getD (parents_map nodes edges) x [])) := by
  set nbl := nodes_by_layer_of nodes (assign_layers nodes edges) with hnbl
  set LN := sortNat (nbl.map fun p => p.1) with hLN
  have hmem : (LN.getLast!, bns) ∈ nbl := lookup_mem hbns
  have hgetDb : getD nbl LN.getLast! [] = bns := by
    unfold getD
    rw [hbns]
    rfl
  have hflat : ((nbl.map fun pr => pr.2).flatten).Nodup :=
    ((nodes_by_layer_flatten_perm nodes (assign_layers nodes edges)).nodup_iff).mpr
      hnd
  have hbnsnd : bns.Nodup := nbl_lists_nodup hflat _ hmem
  have hLNnd : LN.Nodup := by
    rw [hLN]
    refine ((List.perm_insertionSort _ _).nodup_iff).mpr ?_
    exact foldl_appendAt_keys_nodup _ nodes [] (by simp)
  have hLNsorted : List.Sorted (fun a b : Nat => a ≤ b) LN :=
    List.sorted_insertionSort _ _
  have hlastpos : 1 ≤ LN.getLast! :=
    sorted_nodup_getLast_pos hLNsorted hLNnd hlayers
  have hlayerkey : ∀ x ∈ bns, getD (assign_layers nodes edges) x 0 =
      LN.getLast! := by
    intro x hx
    have := appendAt_member_key
      (fun nid => getD (assign_layers nodes edges) nid 0) nodes []
      (fun pr hpr => absurd hpr (List.not_mem_nil pr))
      (LN.getLast!, bns) hmem x hx
    exact this
  have hparents : ∀ x ∈ bns, getD (parents_map nodes edges) x [] ≠ [] := by
    intro x hx
    have hlk : (assign_layers nodes edges).lookup x = some LN.getLast! := by
      have := hlayerkey x hx
      unfold getD at this
      cases hq : (assign_layers nodes edges).lookup x with
      | none =>
        rw [hq] at this
        simp at this
        omega
      | some L =>
        rw [hq] at this
        simp at this
        rw [this]
    obtain ⟨e, he, hinc, htgt⟩ :=
      assign_layers_pos_has_in_edge nodes edges x _ hlk hlastpos
    rw [parents_map_getD]
    refine List.ne_nil_of_mem (?_ : e.1 ∈ _)
    refine List.mem_map_of_mem _ ?_
    rw [List.mem_filter]
    exact ⟨he, by simp [hinc, htgt]⟩
  refine ⟨hparents, ?_⟩
  intro x hx y hy z hz hxz hxy hyz
  set sw := sweep_orders h nbl (children_map nodes edges)
    (parents_map nodes edges) LN it with hsw
  have hLNne : LN.isEmpty = false := by
    cases hcs : LN with
    | nil =>
      rw [hcs] at hlayers
      simp at hlayers
    | cons a l => rfl
  have horders : pipeline_orders h nodes edges it =
      dupdate sw (order_bottom_layer_by_support bns
        (parents_map nodes edges) sw) := by
    show barycenter_ordering h nbl (children_map nodes edges)
      (parents_map nodes edges) it = _
    rw [barycenter_ordering_eq_regroup h nbl _ _ it hLNne
      (by rw [← hLN, hgetDb]; exact ⟨hbig, hlayers⟩)]
    rw [← hLN, hgetDb, ← hsw]
  set flat := obls_flat bns (parents_map nodes edges) sw with hflatdef
  have hfperm : flat.Perm bns := obls_flat_perm bns _ sw
  have hfnd : flat.Nodup := (hfperm.nodup_iff).mpr hbnsnd
  have hidx : ∀ w ∈ bns, ∃ iw, iw < flat.length ∧ flat.getD iw [] = w ∧
      getD (pipeline_orders h nodes edges it) w 0 = iw := by
    intro w hw
    obtain ⟨iw, hiw, hwget⟩ := List.mem_iff_getElem.mp (hfperm.mem_iff.mpr hw)
    refine ⟨iw, hiw, ?_, ?_⟩
    · rw [List.getD_eq_getElem flat [] hiw, hwget]
    · rw [horders]
      have := regroup_orders_getD sw bns (parents_map nodes edges)
        (by rw [← hflatdef]; exact hfnd) iw hiw
      rw [← hflatdef] at this
      rw [List.getD_eq_getElem flat [] hiw, hwget] at this
      exact this
  obtain ⟨ix, hix, hxget, hxord⟩ := hidx x hx
  obtain ⟨iy, hiy, hyget, hyord⟩ := hidx y hy
  obtain ⟨iz, hiz, hzget, hzord⟩ := hidx z hz
  rw [hxord, hyord] at hxy
  rw [hyord, hzord] at hyz
  have hkey : ∀ w ∈ bns, group_key_of (parents_map nodes edges) w =
      sortStr (getD (parents_map nodes edges) w []) := by
    intro w hw
    unfold group_key_of
    rw [if_neg]
    intro hemp
    exact hparents w hw (List.isEmpty_iff.mp hemp)
  have hkeyxz : group_key_of (parents_map nodes edges) x =
      group_key_of (parents_map nodes edges) z := by
    rw [hkey x hx, hkey z hz]
    exact sortStr_eq_of_set_eq (parents_map_nodup nodes edges hedup x)
      (parents_map_nodup nodes edges hedup z) hxz
  have hbtw := flatten_key_between
    ((sorted_groups_of bns (parents_map nodes edges) sw).map
      fun t => sortStr t.2.2)
    (obls_blocks_const bns _ sw) (obls_blocks_pairwise bns _ sw)
    ix iy iz hxy hyz (by
      show iz < flat.length
      exact hiz)
    (by
      show group_key_of (parents_map nodes edges) (flat.getD ix []) =
        group_key_of (parents_map nodes edges) (flat.getD iz [])
      rw [hxget, hzget]
      exact hkeyxz)
  rw [show (((sorted_groups_of bns (parents_map nodes edges) sw).map
      fun t => sortStr t.2.2)).flatten = flat from rfl] at hbtw
  rw [hyget, hxget] at hbtw
  rw [hkey y hy, hkey x hx] at hbtw
  intro s
  have := set_eq_of_sortStr_eq hbtw s
  exact this

/-- Witness for C6: on the concrete 2-layer graph a->q, b->p the bottom
layer is [p, q]; node p has a nonempty parent list, and the contiguity
property instantiated at x = y = z = p (with the trivial set-equality) holds
at parent id b. -/
theorem C6_leaf_grouping_contiguity_witness :
    getD (parents_map crossImpNodes crossImpEdges) (str "p") [] ≠ [] ∧
    (str "b" ∈ getD (parents_map crossImpNodes crossImpEdges)
        (str "p") [] ↔ str "b" ∈ getD (parents_map crossImpNodes
        crossImpEdges) (str "p") []) :=
  ⟨(C6_leaf_grouping_contiguity pyhash0 crossImpNodes crossImpEdges 8
      (by decide) (by decide) [str "p", str "q"] (by decide) (by decide)
      (by decide)).1 (str "p") (by decide),
   (C6_leaf_grouping_contiguity pyhash0 crossImpNodes crossImpEdges 8
      (by decide) (by decide) [str "p", str "q"] (by decide) (by decide)
      (by decide)).2 (str "p") (by decide) (str "p") (by decide)
      (str "p") (by decide) (fun s => Iff.rfl) (le_refl _) (le_refl _)
      (str "b")⟩

/-! ## The topological layering invariant (C1) -/

theorem getD_setk {α β : Type} [BEq α] [LawfulBEq α] [DecidableEq α]
    (d : List (α × β)) (k : α) (v : β) (k' : α) (z : β) :
    getD (setk d k v) k' z = if k' = k then v else getD d k' z := by
  unfold getD
  rw [lookup_setk]
  by_cases h : k' = k
  · rw [if_pos h, if_pos h]
    rfl
  · rw [if_neg h, if_neg h]

theorem getD_addAt {α : Type} [BEq α] [LawfulBEq α] [DecidableEq α]
    (d : List (α × Int)) (k : α) (n : Int) (k' : α) :
    getD (addAt d k n) k' 0 = if k' = k then getD d k 0 + n else getD d k' 0 := by
  unfold getD
  rw [lookup_addAt]
  by_cases h : k' = k
  · rw [if_pos h, if_pos h]
    rfl
  · rw [if_neg h, if_neg h]

/-- The `if id not in d: d[id] = z` passes (the in-degree completion and the
cycle-fallback layer pass) never change a `getD`-with-default-`z` read. -/
theorem getD_fallback {α β : Type} [BEq α] [LawfulBEq α] [DecidableEq α]
    (z : β) :
    ∀ (ns : List α) (base : List (α × β)) (k : α),
      getD (ns.foldl (fun ly nid =>
        if (ly.lookup nid).isSome then ly else ly ++ [(nid, z)]) base) k z =
      getD base k z
  | [], base, k => rfl
  | n :: ns, base, k => by
    simp only [List.foldl_cons]
    by_cases h0 : (base.lookup n).isSome = true
    · rw [if_pos h0]
      exact getD_fallback z ns base k
    · rw [if_neg h0, getD_fallback z ns _ k]
      unfold getD
      rw [List.lookup_append]
      cases hq : base.lookup k with
      | some v => rw [show ((some v).or (List.lookup k [(n, z)])) = some v from rfl]
      | none =>
        simp only [Option.none_or]
        rw [lookup_cons_key]
        by_cases h1 : k = n
        · rw [if_pos h1]
          rfl
        · rw [if_neg h1]
          rfl

theorem foldl_addAt_getD {α γ : Type} [BEq α] [LawfulBEq α] [DecidableEq α]
    (P : γ → Bool) (key : γ → α) :
    ∀ (es : List γ) (d : List (α × Int)) (k : α),
      getD (es.foldl
        (fun d e => if P e then addAt d (key e) 1 else d) d) k 0 =
      getD d k 0 + ((es.countP fun e => P e && (key e == k)) : Int)
  | [], d, k => by simp
  | e :: es, d, k => by
    simp only [List.foldl_cons, List.countP_cons]
    by_cases hp : P e = true
    · rw [if_pos hp, foldl_addAt_getD P key es _ k, getD_addAt]
      by_cases hk : k = key e
      · rw [if_pos hk, hk]
        have : (P e && (key e == key e)) = true := by simp [hp]
        rw [this]
        simp
        omega
      · rw [if_neg hk]
        have : (P e && (key e == k)) = false := by
          simp [hp]
          exact fun h => hk h.symm
        rw [this]
        simp
    · rw [if_neg hp, foldl_addAt_getD P key es d k]
      have : (P e && (key e == k)) = false := by simp [hp]
      rw [this]
      simp

/-- The in-degree dict built from the edge pass counts exactly the parent
occurrences of each node. -/
theorem in_degree_edges_getD (nodes : List NodeId) (edges : List Edge)
    (c : NodeId) :
    getD (in_degree_edges nodes edges) c 0 =
      ((getD (parents_map nodes edges) c []).length : Int) := by
  have h1 := foldl_addAt_getD (fun e : Edge => included nodes e)
    (fun e : Edge => e.2) edges [] c
  rw [parents_map_getD, List.length_map, ← List.countP_eq_length_filter]
  simpa [in_degree_edges, getD] using h1

theorem in_degree_init_getD (nodes : List NodeId) (edges : List Edge)
    (c : NodeId) :
    getD (in_degree_init nodes edges) c 0 =
      getD (in_degree_edges nodes edges) c 0 := by
  unfold in_degree_init
  exact getD_fallback 0 nodes _ c

/-- The cycle-fallback pass of `assign_layers` never changes a layer read
with default 0. -/
theorem assign_layers_getD (nodes : List NodeId) (edges : List Edge)
    (x : NodeId) :
    getD (assign_layers nodes edges) x 0 =
      getD (assign_layers_state nodes edges).layers x 0 := by
  unfold assign_layers
  exact getD_fallback 0 nodes _ x

/-- The seeding pass enqueues exactly the nodes of in-degree zero, in node
order. -/
theorem seed_state_snd (nodes : List NodeId) (indeg : List (NodeId × Int)) :
    (seed_state nodes indeg).2 =
      nodes.filter fun nid => getD indeg nid 0 == 0 := by
  unfold seed_state
  have main : ∀ (l : List NodeId) (acc : List (NodeId × Nat) × List NodeId),
      (l.foldl (fun st nid =>
        if getD indeg nid 0 == 0 then (setk st.1 nid 0, st.2 ++ [nid])
        else st) acc).2 =
      acc.2 ++ l.filter (fun nid => getD indeg nid 0 == 0) := by
    intro l
    induction l with
    | nil => intro acc; simp
    | cons hd tl ih =>
      intro acc
      simp only [List.foldl_cons, List.filter_cons]
      by_cases h0 : (getD indeg hd 0 == 0) = true
      · rw [if_pos h0, if_pos h0, ih]
        simp
      · rw [if_neg h0, if_neg h0, ih]
  rw [main nodes ([], [])]
  rfl

theorem countP_disjoint_add {α : Type} {l : List α} {p r : α → Bool}
    (hd : ∀ a ∈ l, ¬(p a = true ∧ r a = true)) :
    l.countP (fun a => p a || r a) = l.countP p + l.countP r := by
  induction l with
  | nil => simp
  | cons a t ih =>
    simp only [List.countP_cons]
    rw [ih (fun x hx => hd x (List.mem_cons_of_mem _ hx))]
    have ha := hd a (List.mem_cons_self _ _)
    cases hp : p a with
    | true =>
      have hr : r a = false := by
        cases hr2 : r a with
        | true => exact absurd ⟨hp, hr2⟩ ha
        | false => rfl
      rw [hr]
      simp
      omega
    | false =>
      cases hr : r a with
      | true =>
        simp
        omega
      | false =>
        simp

/-- If two Bool predicates are pointwise exclusive on a list and their
counts together reach the list's length, every element satisfies one of
them. -/
theorem countP_cover {α : Type} {l : List α} {p r : α → Bool}
    (hd : ∀ a ∈ l, ¬(p a = true ∧ r a = true))
    (hlen : l.length ≤ l.countP p + l.countP r) :
    ∀ a ∈ l, p a = true ∨ r a = true := by
  have h1 : l.countP (fun a => p a || r a) = l.length :=
    le_antisymm (List.countP_le_length _)
      (by rw [countP_disjoint_add hd]; exact hlen)
  intro a ha
  have := List.countP_eq_length.mp h1 a ha
  simpa using this

/-- The multiplicity of `c` among the children of `u` equals the
multiplicity of `u` among the parents of `c`: both count the included
occurrences of the edge `(u, c)`. -/
theorem count_children_parents (nodes : List NodeId) (edges : List Edge)
    (u c : NodeId) :
    (getD (children_map nodes edges) u []).count c =
      (getD (parents_map nodes edges) c []).count u := by
  rw [children_map_getD, parents_map_getD]
  show List.countP (fun x => x == c) _ = List.countP (fun x => x == u) _
  rw [List.countP_map, List.countP_filter, List.countP_map,
    List.countP_filter]
  apply List.countP_congr
  intro e he
  simp only [Function.comp, Bool.and_eq_true, beq_iff_eq]
  constructor
  · rintro ⟨h1, h2, h3⟩
    exact ⟨h3, h2, h1⟩
  · rintro ⟨h1, h2, h3⟩
    exact ⟨h3, h2, h1⟩

/-- A child occurrence is an included edge: its target is a node id and the
child's parents list contains the source. -/
theorem children_mem_src_parents (nodes : List NodeId) (edges : List Edge)
    {u c : NodeId} (hc : c ∈ getD (children_map nodes edges) u []) :
    c ∈ nodes ∧ u ∈ getD (parents_map nodes edges) c [] := by
  rw [children_map_getD] at hc
  obtain ⟨e, he, hec⟩ := List.mem_map.mp hc
  simp only [List.mem_filter, Bool.and_eq_true, beq_iff_eq] at he
  obtain ⟨hee, hinc, heu⟩ := he
  have hinc2 := hinc
  simp only [included, Bool.and_eq_true] at hinc2
  constructor
  · rw [← hec]
    exact List.elem_iff.mp hinc2.2
  · rw [parents_map_getD]
    refine List.mem_map.mpr ⟨e, ?_, heu⟩
    rw [List.mem_filter]
    refine ⟨hee, ?_⟩
    simp [hinc, hec]

/-- Effect of one dequeue iteration's child fold on the loop state: the
processed list is untouched, layers only grow and only at the processed
children (which all end at least one layer below the dequeued node's layer
`L`), each in-degree drops by the child's multiplicity, and the queue grows
at the end by a duplicate-free batch of children whose in-degree reached
zero. -/
theorem process_fold_inv (L : Nat) (q0 : List NodeId) (G : NodeId → Prop) :
    ∀ (cs : List NodeId) (st : KState),
      (∀ c ∈ cs, G c) →
      (∃ nq, st.queue = q0 ++ nq ∧ nq.Nodup ∧
        ∀ x ∈ nq, G x ∧ getD st.indeg x 0 ≤ 0) →
      (cs.foldl (process_child L) st).processed = st.processed ∧
      (∀ x, getD st.layers x 0 ≤
        getD (cs.foldl (process_child L) st).layers x 0) ∧
      (∀ x, x ∉ cs →
        getD (cs.foldl (process_child L) st).layers x 0 =
          getD st.layers x 0) ∧
      (∀ x ∈ cs, L + 1 ≤ getD (cs.foldl (process_child L) st).layers x 0) ∧
      (∀ x, getD (cs.foldl (process_child L) st).indeg x 0 =
        getD st.indeg x 0 - (cs.count x : Int)) ∧
      (∃ nq, (cs.foldl (process_child L) st).queue = q0 ++ nq ∧ nq.Nodup ∧
        ∀ x ∈ nq, G x ∧ getD (cs.foldl (process_child L) st).indeg x 0 ≤ 0) := by
  intro cs
  induction cs with
  | nil =>
    intro st hG hqh
    refine ⟨rfl, fun x => le_refl _, fun x hx => rfl, ?_, ?_, hqh⟩
    · intro x hx
      exact absurd hx (List.not_mem_nil x)
    · intro x
      simp
  | cons c cs ih =>
    intro st hG hqh
    obtain ⟨nq, hqeq, hnd, hm⟩ := hqh
    simp only [List.foldl_cons]
    have hproc1 : (process_child L st c).processed = st.processed := rfl
    have hlay1 : ∀ x, getD (process_child L st c).layers x 0 =
        if x = c then max (getD st.layers c 0) (L + 1)
        else getD st.layers x 0 := by
      intro x
      show getD (setk st.layers c (max (getD st.layers c 0) (L + 1))) x 0 = _
      exact getD_setk st.layers c _ x 0
    have hind1 : ∀ x, getD (process_child L st c).indeg x 0 =
        if x = c then getD st.indeg c 0 - 1 else getD st.indeg x 0 := by
      intro x
      show getD (addAt st.indeg c (-1)) x 0 = _
      rw [getD_addAt]
      by_cases h : x = c
      · rw [if_pos h, if_pos h]
        omega
      · rw [if_neg h, if_neg h]
    have hqueue1 : (process_child L st c).queue =
        if getD (process_child L st c).indeg c 0 == 0
        then st.queue ++ [c] else st.queue := rfl
    have hqh2 : ∃ nq2, (process_child L st c).queue = q0 ++ nq2 ∧
        nq2.Nodup ∧ ∀ x ∈ nq2, G x ∧
          getD (process_child L st c).indeg x 0 ≤ 0 := by
      by_cases hz : (getD (process_child L st c).indeg c 0 == 0) = true
      · have hz' : getD (process_child L st c).indeg c 0 = 0 :=
          beq_iff_eq.mp hz
        have hc1 : getD st.indeg c 0 = 1 := by
          have h2 := hind1 c
          rw [if_pos rfl] at h2
          omega
        have hcnq : c ∉ nq := by
          intro hcm
          have := (hm c hcm).2
          omega
        refine ⟨nq ++ [c], ?_, ?_, ?_⟩
        · rw [hqueue1, if_pos hz, hqeq, List.append_assoc]
        · rw [List.nodup_append]
          refine ⟨hnd, List.nodup_singleton c, ?_⟩
          intro a ha hb
          rw [List.mem_singleton] at hb
          subst hb
          exact hcnq ha
        · intro x hx
          rcases List.mem_append.mp hx with hx1 | hx2
          · have hxc : x ≠ c := by
              intro he
              subst he
              exact hcnq hx1
            refine ⟨(hm x hx1).1, ?_⟩
            rw [hind1 x, if_neg hxc]
            exact (hm x hx1).2
          · rw [List.mem_singleton] at hx2
            subst hx2
            refine ⟨hG x (List.mem_cons_self _ _), ?_⟩
            omega
      · refine ⟨nq, ?_, hnd, ?_⟩
        · rw [hqueue1, if_neg hz, hqeq]
        · intro x hx
          refine ⟨(hm x hx).1, ?_⟩
          rw [hind1 x]
          by_cases h : x = c
          · rw [if_pos h]
            have h2 := (hm x hx).2
            rw [h] at h2
            omega
          · rw [if_neg h]
            exact (hm x hx).2
    obtain ⟨ihp, ihmono, ihframe, ihlb, ihind, ihq⟩ :=
      ih (process_child L st c)
        (fun a ha => hG a (List.mem_cons_of_mem _ ha)) hqh2
    refine ⟨?_, ?_, ?_, ?_, ?_, ihq⟩
    · rw [ihp, hproc1]
    · intro x
      refine le_trans ?_ (ihmono x)
      rw [hlay1 x]
      by_cases h : x = c
      · rw [if_pos h, h]
        exact le_max_left _ _
      · rw [if_neg h]
    · intro x hx
      have hxc : x ≠ c := by
        intro h
        exact hx (h ▸ List.mem_cons_self _ _)
      have hxcs : x ∉ cs := fun h => hx (List.mem_cons_of_mem _ h)
      rw [ihframe x hxcs, hlay1 x, if_neg hxc]
    · intro x hx
      rcases List.mem_cons.mp hx with h | h
      · subst h
        by_cases hxcs : x ∈ cs
        · exact ihlb x hxcs
        · rw [ihframe x hxcs, hlay1 x, if_pos rfl]
          exact le_max_right _ _
      · exact ihlb x h
    · intro x
      rw [ihind x, hind1 x]
      by_cases h : x = c
      · rw [if_pos h, h, List.count_cons_self]
        push_cast
        omega
      · rw [if_neg h, List.count_cons_of_ne h]

/-- One dequeue iteration of the queue loop preserves the invariant. -/
theorem KInv_iter {nodes : List NodeId} {edges : List Edge} {st : KState}
    {u0 : NodeId} {q : List NodeId} (hq : st.queue = u0 :: q)
    (hI : KInv nodes edges st) :
    KInv nodes edges
      { (getD (children_map nodes edges) u0 []).foldl
          (process_child (getD st.layers u0 0)) { st with queue := q } with
        processed := ((getD (children_map nodes edges) u0 []).foldl
          (process_child (getD st.layers u0 0))
          { st with queue := q }).processed ++ [u0] } := by
  obtain ⟨hIa, hIf, hIdisj, hInd, hID⟩ := hI
  set L := getD st.layers u0 0 with hL
  set cs := getD (children_map nodes edges) u0 [] with hcs
  set stA : KState := { st with queue := q } with hstA
  set stB := cs.foldl (process_child L) stA with hstB
  have hu0q : u0 ∈ st.queue := by
    rw [hq]
    exact List.mem_cons_self _ _
  have hu0np : u0 ∉ st.processed := hIdisj u0 hu0q
  have hcfacts : ∀ c ∈ cs, c ∈ nodes ∧
      u0 ∈ getD (parents_map nodes edges) c [] ∧ c ∉ st.processed ∧
      c ∉ q ∧ c ≠ u0 := by
    intro c hc
    obtain ⟨hcn, hup⟩ := children_mem_src_parents nodes edges hc
    refine ⟨hcn, hup, ?_, ?_, ?_⟩
    · intro hcP
      exact hu0np (hIf c (Or.inr hcP) u0 hup)
    · intro hcq
      have hmem : c ∈ st.queue := by
        rw [hq]
        exact List.mem_cons_of_mem _ hcq
      exact hu0np (hIf c (Or.inl hmem) u0 hup)
    · intro he
      subst he
      exact hu0np (hIf c (Or.inl hu0q) c hup)
  obtain ⟨hfp, hfmono, hfframe, hflb, hfind, nq', hfq, hfnd, hfm⟩ :=
    process_fold_inv L q (fun x => x ∈ cs) cs stA (fun c hc => hc)
      ⟨[], by rw [List.append_nil], List.nodup_nil,
       fun x hx => absurd hx (List.not_mem_nil x)⟩
  rw [← hstB] at hfp hfmono hfframe hflb hfind hfq
  have hfp' : stB.processed = st.processed := hfp
  have hfmono' : ∀ x, getD st.layers x 0 ≤ getD stB.layers x 0 := hfmono
  have hfframe' : ∀ x, x ∉ cs → getD stB.layers x 0 = getD st.layers x 0 :=
    hfframe
  have hfind' : ∀ x, getD stB.indeg x 0 =
      getD st.indeg x 0 - (cs.count x : Int) := hfind
  have hdisjP : ∀ (c : NodeId), ∀ a ∈ getD (parents_map nodes edges) c [],
      ¬((decide (a ∈ st.processed)) = true ∧ (a == u0) = true) := by
    rintro c a ha ⟨h1', h2'⟩
    have ha1 := of_decide_eq_true h1'
    rw [beq_iff_eq.mp h2'] at ha1
    exact hu0np ha1
  have hcntAll : ∀ c : NodeId, (cs.count c : Int) =
      ((getD (parents_map nodes edges) c []).countP
        (fun w' => w' == u0) : Int) := by
    intro c
    rw [hcs, count_children_parents nodes edges u0 c]
    rfl
  refine ⟨?_, ?_, ?_, ?_, ?_⟩
  · intro u hu v hv
    rcases List.mem_append.mp hu with h | h
    · rw [hfp'] at h
      have hunotcs : u ∉ cs := fun hc2 => (hcfacts u hc2).2.2.1 h
      have h1 := hfframe' u hunotcs
      have h2 := hIa u h v hv
      have h3 := hfmono' v
      show getD stB.layers u 0 < getD stB.layers v 0
      omega
    · have hueq : u = u0 := List.mem_singleton.mp h
      subst hueq
      have hvcs : v ∈ cs := hv
      have hucs : u ∉ cs := fun hc2 => (hcfacts u hc2).2.2.2.2 rfl
      have h1 := hfframe' u hucs
      have h2 := hflb v hvcs
      show getD stB.layers u 0 < getD stB.layers v 0
      omega
  · intro c hc w hw
    have hCgoal : ∀ a ∈ st.processed, a ∈ stB.processed ++ [u0] := by
      intro a ha
      refine List.mem_append.mpr (Or.inl ?_)
      rw [hfp']
      exact ha
    rcases hc with hcq | hcp
    · have hcq2 : c ∈ q ++ nq' := by
        rw [← hfq]
        exact hcq
      rcases List.mem_append.mp hcq2 with h1 | h2
      · have hmq : c ∈ st.queue := by
          rw [hq]
          exact List.mem_cons_of_mem _ h1
        exact hCgoal w (hIf c (Or.inl hmq) w hw)
      · obtain ⟨hccs, hcind⟩ := hfm c h2
        have hcind' : getD stB.indeg c 0 ≤ 0 := by
          rw [hstB]
          exact hcind
        have hcn := (hcfacts c hccs).1
        have hD := hID c hcn
        have hfi := hfind' c
        have hlen : (getD (parents_map nodes edges) c []).length ≤
            (getD (parents_map nodes edges) c []).countP
              (fun w' => decide (w' ∈ st.processed)) +
            (getD (parents_map nodes edges) c []).countP
              (fun w' => w' == u0) := by
          have hle := hcind'
          rw [hfi, hD, hcntAll c] at hle
          omega
        rcases countP_cover (hdisjP c) hlen w hw with h3 | h3
        · exact hCgoal w (of_decide_eq_true h3)
        · exact List.mem_append.mpr
            (Or.inr (List.mem_singleton.mpr (beq_iff_eq.mp h3)))
    · rcases List.mem_append.mp hcp with h1 | h2
      · rw [hfp'] at h1
        exact hCgoal w (hIf c (Or.inr h1) w hw)
      · have hce := List.mem_singleton.mp h2
        subst hce
        exact hCgoal w (hIf c (Or.inl hu0q) w hw)
  · intro x hx hxp
    have hx2 : x ∈ q ++ nq' := by
      rw [← hfq]
      exact hx
    rcases List.mem_append.mp hxp with hp1 | hp2
    · rw [hfp'] at hp1
      rcases List.mem_append.mp hx2 with h1 | h2
      · exact hIdisj x (by rw [hq]; exact List.mem_cons_of_mem _ h1) hp1
      · exact (hcfacts x (hfm x h2).1).2.2.1 hp1
    · have hxe := List.mem_singleton.mp hp2
      subst hxe
      rcases List.mem_append.mp hx2 with h1 | h2
      · have hnd2 := hInd
        rw [hq] at hnd2
        exact (List.nodup_cons.mp hnd2).1 h1
      · exact (hcfacts x (hfm x h2).1).2.2.2.2 rfl
  · show stB.queue.Nodup
    rw [hfq, List.nodup_append]
    refine ⟨?_, hfnd, ?_⟩
    · have hnd2 := hInd
      rw [hq] at hnd2
      exact (List.nodup_cons.mp hnd2).2
    · intro a ha hb
      exact (hcfacts a (hfm a hb).1).2.2.2.1 ha
  · intro c hcn
    have hc1 : ∀ w' : NodeId,
        (decide (w' ∈ stB.processed ++ [u0]) : Bool) =
        (decide (w' ∈ st.processed) || (w' == u0)) := by
      intro w'
      rw [Bool.beq_eq_decide_eq, ← Bool.decide_or]
      refine decide_eq_decide.mpr ?_
      rw [hfp']
      simp [List.mem_append]
    have hsplit : (getD (parents_map nodes edges) c []).countP
        (fun w' => decide (w' ∈ stB.processed ++ [u0])) =
        (getD (parents_map nodes edges) c []).countP
          (fun w' => decide (w' ∈ st.processed)) +
        (getD (parents_map nodes edges) c []).countP
          (fun w' => w' == u0) := by
      rw [← countP_disjoint_add (hdisjP c)]
      apply List.countP_congr
      intro x hx2
      rw [hc1 x]
    show getD stB.indeg c 0 =
      ((getD (parents_map nodes edges) c []).length : Int) -
      ((getD (parents_map nodes edges) c []).countP
        (fun w' => decide (w' ∈ stB.processed ++ [u0])) : Int)
    rw [hsplit, hfind' c, hID c hcn, hcntAll c]
    push_cast
    omega

/-- The queue loop preserves the invariant, for any fuel. -/
theorem kahn_loop_inv {nodes : List NodeId} {edges : List Edge} :
    ∀ (fuel : Nat) (st : KState), KInv nodes edges st →
      KInv nodes edges (kahn_loop (children_map nodes edges) fuel st)
  | 0, _, hI => hI
  | fuel + 1, st, hI => by
    unfold kahn_loop
    cases hq : st.queue with
    | nil => exact hI
    | cons u0 q => exact kahn_loop_inv fuel _ (KInv_iter hq hI)

/-- The invariant holds at the seeded initial state of the queue loop. -/
theorem kahn_init_inv (nodes : List NodeId) (edges : List Edge)
    (hnd : nodes.Nodup) :
    KInv nodes edges
      { queue := (seed_state nodes (in_degree_init nodes edges)).2,
        layers := (seed_state nodes (in_degree_init nodes edges)).1,
        indeg := in_degree_init nodes edges, processed := [] } := by
  have hseed := seed_state_snd nodes (in_degree_init nodes edges)
  have hqmem : ∀ c, c ∈ (seed_state nodes (in_degree_init nodes edges)).2 →
      c ∈ nodes ∧ getD (in_degree_init nodes edges) c 0 = 0 := by
    intro c hc
    rw [hseed, List.mem_filter] at hc
    exact ⟨hc.1, beq_iff_eq.mp hc.2⟩
  refine ⟨?_, ?_, ?_, ?_, ?_⟩
  · intro u hu
    exact absurd hu (List.not_mem_nil u)
  · intro c hc w hw
    rcases hc with h1 | h2
    · obtain ⟨hcn, hz⟩ := hqmem c h1
      have hlen : ((getD (parents_map nodes edges) c []).length : Int) = 0 := by
        rw [← in_degree_edges_getD nodes edges c,
          ← in_degree_init_getD nodes edges c, hz]
      have hnil : getD (parents_map nodes edges) c [] = [] :=
        List.length_eq_zero.mp (by exact_mod_cast hlen)
      rw [hnil] at hw
      exact absurd hw (List.not_mem_nil w)
    · exact absurd h2 (List.not_mem_nil c)
  · intro c hc
    exact List.not_mem_nil c
  · show (seed_state nodes (in_degree_init nodes edges)).2.Nodup
    rw [hseed]
    exact List.Nodup.filter _ hnd
  · intro c hcn
    show getD (in_degree_init nodes edges) c 0 = _
    rw [in_degree_init_getD, in_degree_edges_getD]
    have hz : (getD (parents_map nodes edges) c []).countP
        (fun w => decide (w ∈ ([] : List NodeId))) = 0 := by
      simp
    rw [hz]
    omega

/-- C1: for every edge whose endpoints are both node ids and are both
settled by the topological queue process (the spec's "not part of an
unresolved cycle"), the source's layer is strictly below the target's layer,
in the map returned by `assign_layers` and in the third component of
`compute_layout_positions`. -/
theorem C1_layering_invariant (h : NodeId → Nat) (nodes : List NodeId)
    (edges : List Edge) (node_spacing layer_separation : Int)
    (iterations : Nat) (hnd : nodes.Nodup) (e : Edge) (he : e ∈ edges)
    (hsrc : e.1 ∈ nodes) (htgt : e.2 ∈ nodes)
    (hu : e.1 ∈ kahn_processed nodes edges)
    (hv : e.2 ∈ kahn_processed nodes edges) :
    getD (assign_layers nodes edges) e.1 0 <
      getD (assign_layers nodes edges) e.2 0 ∧
    getD (compute_layout_positions h nodes edges node_spacing
        layer_separation iterations).2.2 e.1 0 <
      getD (compute_layout_positions h nodes edges node_spacing
        layer_separation iterations).2.2 e.2 0 := by
  have hstate : KInv nodes edges (assign_layers_state nodes edges) := by
    show KInv nodes edges (kahn_loop (children_map nodes edges)
      (2 * nodes.length + 1)
      { queue := (seed_state nodes (in_degree_init nodes edges)).2,
        layers := (seed_state nodes (in_degree_init nodes edges)).1,
        indeg := in_degree_init nodes edges, processed := [] })
    exact kahn_loop_inv _ _ (kahn_init_inv nodes edges hnd)
  have hincl : included nodes e = true := by
    unfold included
    rw [Bool.and_eq_true]
    exact ⟨List.elem_iff.mpr hsrc, List.elem_iff.mpr htgt⟩
  have hchild : e.2 ∈ getD (children_map nodes edges) e.1 [] := by
    rw [children_map_getD]
    refine List.mem_map.mpr ⟨e, ?_, rfl⟩
    rw [List.mem_filter]
    refine ⟨he, ?_⟩
    simp [hincl]
  have hmain : getD (assign_layers_state nodes edges).layers e.1 0 <
      getD (assign_layers_state nodes edges).layers e.2 0 :=
    hstate.1 e.1 hu e.2 hchild
  have h1 : getD (assign_layers nodes edges) e.1 0 <
      getD (assign_layers nodes edges) e.2 0 := by
    rw [assign_layers_getD, assign_layers_getD]
    exact hmain
  refine ⟨h1, ?_⟩
  have hne : nodes.isEmpty = false := by
    cases hcn : nodes with
    | nil =>
      rw [hcn] at hsrc
      exact absurd hsrc (List.not_mem_nil _)
    | cons a l => rfl
  have h3 : (compute_layout_positions h nodes edges node_spacing
      layer_separation iterations).2.2 = assign_layers nodes edges := by
    unfold compute_layout_positions
    rw [if_neg (by rw [hne]; exact Bool.false_ne_true)]
  rw [h3]
  exact h1

/-- Witness for C1 on the diamond graph A->B, A->C, B->D, C->D: every node
is settled by the queue, and layer(A) < layer(B). -/
theorem C1_layering_invariant_witness :
    diamondNodes.Nodup ∧ (str "A", str "B") ∈ diamondEdges ∧
    str "A" ∈ kahn_processed diamondNodes diamondEdges ∧
    str "B" ∈ kahn_processed diamondNodes diamondEdges ∧
    getD (assign_layers diamondNodes diamondEdges) (str "A") 0 <
      getD (assign_layers diamondNodes diamondEdges) (str "B") 0 :=
  ⟨by decide, by decide, by decide, by decide,
   (C1_layering_invariant pyhash0 diamondNodes diamondEdges 150 200 8
     (by decide) (str "A", str "B") (by decide) (by decide) (by decide)
     (by decide) (by decide)).1⟩

end GraphLayout